import Mathlib

/-!
# clError: per-node error-sample generator

A shallow embedding of `src/src/clError.cc` (the `main` routine and the
parameter record `inPar2_t`) together with the properties of the walk over the
reference tree.

Conventions of the embedding.

* A `NewickNode_t *` is an index into the arena `NewickTree_t.nodes`; pointer
  comparison is index comparison and a null pointer is `none`.
* The sampling and scoring collaborator `MarkovChains2_t` is a record of two
  functions.  The random generator it consults is an explicit state of type `G`;
  sequences (`Seq`) and scores (`Score`, a `double` in the source) stay abstract.
* A collaborator call that terminates the process is the value `none`.
* The output directory is an association list from path to the rows of the
  file; a row is the first field (a label) and the tab-separated scores.
* A file is written through a buffered stream.  `fclose` puts everything
  printed into the file; when the process ends before `fclose`, the file holds
  the fields that had reached it, a front part of what was printed (all of it
  when the process ends through `exit`).  How many fields that is, is given by
  the world the program runs in (`World.keptFields`).
* Following a dangling pointer, constructing a `std::string` from a null
  pointer and converting a non-finite `double` to `int` are undefined
  behaviour and are reported as such.
-/

namespace ClError

/-! ## The reference tree -/

/-- A node of the reference tree (`NewickNode_t`): its label, the index of its
model, the ordered child pointers and the parent pointer. -/
structure NewickNode_t where
  label : String
  model_idx : Int
  children_m : List Nat
  parent_m : Option Nat
  deriving DecidableEq

/-- The reference tree (`NewickTree_t`): the arena of nodes and the root pointer. -/
structure NewickTree_t where
  nodes : List NewickNode_t
  root : Nat
  deriving DecidableEq

/-- The child pointers of a node (`node->children_m`); empty for a pointer
outside the arena. -/
def children (t : NewickTree_t) (node : Nat) : List Nat :=
  match t.nodes[node]? with
  | some nd => nd.children_m
  | none => []

/-- The parent pointer of a node (`node->parent_m`). -/
def parent (t : NewickTree_t) (node : Nat) : Option Nat :=
  match t.nodes[node]? with
  | some nd => nd.parent_m
  | none => none

/-- The ancestor of `node` that is `d` parent links up, when it exists. -/
def ancestor (t : NewickTree_t) : Nat → Nat → Option Nat
  | 0, node => some node
  | d + 1, node =>
    match parent t node with
    | some p => ancestor t d p
    | none => none

/-- The tree invariant: the root is a node without parent; the children of a
node are nodes that point back to it, each listed once; every other node has
a parent that lists it; and every node reaches the root by fewer parent links
than there are nodes (the arena is one finite tree). -/
def TreeInv (t : NewickTree_t) : Prop :=
  t.root < t.nodes.length ∧ parent t t.root = none ∧
  (∀ i < t.nodes.length, ∀ c ∈ children t i, c < t.nodes.length ∧ parent t c = some i) ∧
  (∀ i < t.nodes.length, (children t i).Nodup) ∧
  (∀ i < t.nodes.length, i ≠ t.root →
    ∃ p < t.nodes.length, parent t i = some p ∧ i ∈ children t p) ∧
  (∀ i < t.nodes.length, ∃ d < t.nodes.length, ancestor t d i = some t.root)

instance (t : NewickTree_t) : Decidable (TreeInv t) := by
  unfold TreeInv; infer_instance

/-- Modelled from the spec: `NewickTree_t::leafLabels` (Newick.hh is not part of
the sources).  The leaf descendants of a node in left-to-right order; the set of
a leaf is the leaf itself.  The recursion depth is bounded by `fuel`. -/
def leafLabelsAux (t : NewickTree_t) : Nat → Nat → List Nat
  | 0, _ => []
  | fuel + 1, node =>
    match t.nodes[node]? with
    | none => []
    | some nd =>
      if nd.children_m = [] then [node]
      else nd.children_m.flatMap (leafLabelsAux t fuel)

/-- Modelled from the spec: `nt.leafLabels(node, leaves)`, the ordered leaf
descendants of `node`; no path of a tree is longer than its number of nodes. -/
def leafLabels (t : NewickTree_t) (node : Nat) : List Nat :=
  leafLabelsAux t t.nodes.length node

/-! ## Collaborators and the output directory -/

/-- Modelled from the spec: the scoring model `MarkovChains2_t` (MarkovChains2.hh
is not part of the sources).  `sample g model_idx count seqLen` fills a table of
`count` sequences, indexed from `0`, and advances the generator;
`normLog10prob seq seqLen model_idx` is the score of `seq` under a model.
`none` is a failure of the collaborator, which ends the process. -/
structure MarkovChains2_t (Seq Score G : Type) where
  sample : G → Int → Int → Int → Option ((Nat → Seq) × G)
  normLog10prob : Seq → Int → Int → Option Score

/-- One line of an output file: the first field and the scores after it. -/
abbrev Row (Score : Type) := String × List Score

/-- The output directory: each path with the rows of its file. -/
abbrev FileSys (Score : Type) := List (String × List (Row Score))

/-- Replace the file at `path` by one with content `rows` (a stream opened with
mode `"w"` and flushed). -/
def FileSys.write {Score : Type} (fs : FileSys Score) (path : String)
    (rows : List (Row Score)) : FileSys Score :=
  fs.filter (fun e => e.1 ≠ path) ++ [(path, rows)]

/-- The content of the file at `path`, when there is one. -/
def FileSys.read {Score : Type} (fs : FileSys Score) (path : String) :
    Option (List (Row Score)) :=
  (fs.find? (fun e => e.1 = path)).map Prod.snd

/-- The paths of the files in the directory. -/
def FileSys.paths {Score : Type} (fs : FileSys Score) : List String :=
  fs.map Prod.fst

/-- The number of fields printed for the lines `rows`: a label and the scores
of every line. -/
def fieldCount {Score : Type} (rows : List (Row Score)) : Nat :=
  (rows.map (fun row => row.2.length + 1)).sum

/-- The first `n` fields of the lines `rows`, in the order in which they were
printed: whole lines, and at the end possibly a line that lacks its last
scores. -/
def cutFields {Score : Type} : List (Row Score) → Nat → List (Row Score)
  | [], _ => []
  | _ :: _, 0 => []
  | (label, scores) :: rest, n + 1 =>
    if scores.length ≤ n then (label, scores) :: cutFields rest (n - scores.length)
    else [(label, scores.take n)]

/-- What the program runs against: the loaded scoring model, whether `fOpen`
can open a path for writing, the tree that `loadTree` parses from a path (with
the model indices assigned by `nt.modelIdx`), whether `modelIds.txt` of a
model directory can be read, and `keptFields`: of the lines printed to a
stream that is still open when the process ends, the number of fields that
have reached the file (at least `fieldCount` of them when the process ends
through `exit`, which flushes the stream). -/
structure World (Seq Score G : Type) where
  probModel : MarkovChains2_t Seq Score G
  fOpen : String → Bool
  loadTree : String → Option NewickTree_t
  modelIdsReadable : String → Bool
  keptFields : List (Row Score) → Nat

/-- Why the walk stopped before the worklist was empty. -/
inductive Abort where
  | openFailed
  | modelFailed
  | undefinedBehaviour
  deriving DecidableEq

/-- The state of the walk: the generator, the output directory and the nodes
dequeued so far. -/
structure State (Score G : Type) where
  gen : G
  fs : FileSys Score
  dequeued : List Nat

/-! ## The body of the walk -/

/-- The number of sequences per leaf, `ceil( 1.0 * sampleSize / nSpp )` (line
498).  For two `int` values the `double` quotient is an integer exactly when
the exact quotient is one, and otherwise lies between the same two integers, so
the ceiling is the exact one (`nSeqsPerSpp_eq_ceil`); with `nSpp = 0` the
quotient is not finite and the conversion to `int` is undefined. -/
def nSeqsPerSpp (sampleSize : Int) (nSpp : Nat) : Option Int :=
  if nSpp = 0 then none else some (-((-sampleSize) / (nSpp : Int)))

/-- The loop `for s ...: fprintf(out,"\t%f", normLog10prob(seqTbl[s], seqLen, idx))`
(lines 512-513 and 607-608) over the indices `ss`, after the scores `acc`
were printed: all scores of the line, or the ones printed before a failure. -/
def scoreLoop {Seq Score G : Type} (pm : MarkovChains2_t Seq Score G)
    (seqTbl : Nat → Seq) (seqLen idx : Int) :
    List Nat → List Score → Except (List Score) (List Score)
  | [], acc => .ok acc
  | s :: ss, acc =>
    match pm.normLog10prob (seqTbl s) seqLen idx with
    | none => .error acc
    | some x => scoreLoop pm seqTbl seqLen idx ss (acc ++ [x])

/-- The loop over the leaves of `node` (lines 505-519), with `out` the lines
printed so far: the generator and the lines afterwards, or the reason of a
stop and what was printed until then. -/
def ownLoop {Seq Score G : Type} (pm : MarkovChains2_t Seq Score G)
    (t : NewickTree_t) (nd : NewickNode_t) (nSeqs seqLen : Int) :
    List Nat → G → List (Row Score) →
      Except (Abort × List (Row Score)) (G × List (Row Score))
  | [], g, out => .ok (g, out)
  | leaf :: rest, g, out =>
    match t.nodes[leaf]? with
    | none => .error (.undefinedBehaviour, out)
    | some sppnode =>
      match pm.sample g sppnode.model_idx nSeqs seqLen with
      | none => .error (.modelFailed, out)
      | some (seqTbl, g1) =>
        match scoreLoop pm seqTbl seqLen sppnode.model_idx
            (List.range nSeqs.toNat) [] with
        | .error part => .error (.modelFailed, out ++ [(nd.label, part)])
        | .ok scores =>
          ownLoop pm t nd nSeqs seqLen rest g1 (out ++ [(nd.label, scores)])

/-- The search through the children of the parent (lines 524-530) from
position `i` on: the siblings collected and `nodeIdx`. -/
def identifySiblings (node : Nat) : List Nat → Nat → List Nat × Int → List Nat × Int
  | [], _, acc => acc
  | c :: cs, i, (siblings, nodeIdx) =>
    if c ≠ node then identifySiblings node cs (i + 1) (siblings ++ [c], nodeIdx)
    else identifySiblings node cs (i + 1) (siblings, (i : Int))

/-- The siblings of `node` under the parent `pnode` (lines 523-530). -/
def siblingsOf (pnode : NewickNode_t) (node : Nat) : List Nat :=
  (identifySiblings node pnode.children_m 0 ([], -1)).1

/-- The loop over the siblings (lines 568-614), with `out` the lines printed so
far. -/
def sibLoop {Seq Score G : Type} (pm : MarkovChains2_t Seq Score G)
    (t : NewickTree_t) (nd : NewickNode_t) (sampleSize seqLen : Int) :
    List Nat → G → List (Row Score) →
      Except (Abort × List (Row Score)) (G × List (Row Score))
  | [], g, out => .ok (g, out)
  | sib :: rest, g, out =>
    match t.nodes[sib]? with
    | none => .error (.undefinedBehaviour, out)
    | some sibnode =>
      match pm.sample g sibnode.model_idx sampleSize seqLen with
      | none => .error (.modelFailed, out)
      | some (seqTbl, g1) =>
        match scoreLoop pm seqTbl seqLen nd.model_idx
            (List.range sampleSize.toNat) [] with
        | .error part => .error (.modelFailed, out ++ [(sibnode.label, part)])
        | .ok scores =>
          sibLoop pm t nd sampleSize seqLen rest g1 (out ++ [(sibnode.label, scores)])

/-- The path of the file of a node (line 486). -/
def outFile (outDir : String) (nd : NewickNode_t) : String :=
  outDir ++ "/" ++ nd.label ++ ".txt"

/-- The lines printed for a node between `fOpen` and `fclose` (lines 494-614):
the generator afterwards and the lines, or the reason of a stop and the lines
printed until then. -/
def nodeRows {Seq Score G : Type} (pm : MarkovChains2_t Seq Score G)
    (t : NewickTree_t) (sampleSize seqLen : Int) (node : Nat) (nd : NewickNode_t)
    (g : G) : Except (Abort × List (Row Score)) (G × List (Row Score)) :=
  let leaves := leafLabels t node
  match nSeqsPerSpp sampleSize leaves.length with
  | none => .error (.undefinedBehaviour, [])
  | some nSeqs =>
    match ownLoop pm t nd nSeqs seqLen leaves g [] with
    | .error e => .error e
    | .ok (g1, out1) =>
      match nd.parent_m with
      | none => .error (.undefinedBehaviour, out1)
      | some p =>
        match t.nodes[p]? with
        | none => .error (.undefinedBehaviour, out1)
        | some pnode => sibLoop pm t nd sampleSize seqLen (siblingsOf pnode node) g1 out1

/-- The block run for a node other than the root (lines 484-616): open the file
of the node, print its lines, close it.  `fOpen` creates or empties the file at
once; a process that ends before `fclose` leaves in it the fields, of the lines
printed until then, that had reached the file. -/
def processNode {Seq Score G : Type} (w : World Seq Score G) (t : NewickTree_t)
    (outDir : String) (sampleSize seqLen : Int) (node : Nat) (nd : NewickNode_t)
    (st : State Score G) : Except (Abort × State Score G) (State Score G) :=
  if w.fOpen (outFile outDir nd) = false then .error (.openFailed, st)
  else
    let fs1 := st.fs.write (outFile outDir nd) []
    match nodeRows w.probModel t sampleSize seqLen node nd st.gen with
    | .error (a, out) =>
      .error (a, { st with
        fs := fs1.write (outFile outDir nd) (cutFields out (w.keptFields out)) })
    | .ok (g1, out) => .ok { st with gen := g1, fs := fs1.write (outFile outDir nd) out }

/-- One turn of the loop up to the enqueueing of the children (lines 477-617):
the node is dequeued and, unless it is the root, processed. -/
def visit {Seq Score G : Type} (w : World Seq Score G) (t : NewickTree_t)
    (outDir : String) (sampleSize seqLen : Int) (node : Nat)
    (st : State Score G) : Except (Abort × State Score G) (State Score G) :=
  let st1 := { st with dequeued := st.dequeued ++ [node] }
  match t.nodes[node]? with
  | none => .error (.undefinedBehaviour, st1)
  | some nd =>
    if node ≠ t.root then processNode w t outDir sampleSize seqLen node nd st1
    else .ok st1

/-- How the walk ended. -/
inductive WalkExit where
  | finished
  | aborted (a : Abort)
  | outOfFuel
  deriving DecidableEq

/-- The loop `while ( !bfs.empty() )` (lines 475-626) on the worklist `bfs`,
for at most `fuel` turns. -/
def bfsLoop {Seq Score G : Type} (w : World Seq Score G) (t : NewickTree_t)
    (outDir : String) (sampleSize seqLen : Int) :
    Nat → List Nat → State Score G → WalkExit × State Score G
  | _, [], st => (.finished, st)
  | 0, _ :: _, st => (.outOfFuel, st)
  | fuel + 1, node :: bfs, st =>
    match visit w t outDir sampleSize seqLen node st with
    | .error (a, st1) => (.aborted a, st1)
    | .ok st1 => bfsLoop w t outDir sampleSize seqLen fuel (bfs ++ children t node) st1

/-! ## Parameters and `main` -/

/-- Modelled from the spec: the pseudo-count schemes that `parseArgs` and the
constructor of `inPar2_t` name (the enumeration is declared in
MarkovChains2.hh, which is not part of the sources). -/
inductive PseudoCountType where
  | zeroOffset0
  | zeroOffset1
  | recPdoCount
  deriving DecidableEq

/-- The input parameters (`inPar2_t`); a `char *` that is `NULL` is `none`.
The threshold `thld`, a `double` that `main` never reads, is left out. -/
structure inPar2_t where
  outDir : Option String
  mcDir : Option String
  trgFile : Option String
  faDir : Option String
  inFile : Option String
  seqID : Option String
  treeFile : Option String
  trgFiles : List String
  kMerLens : List Int
  printCounts : Int
  maxNumAmbCodes : Int
  randSampleSize : Int
  pseudoCountType : PseudoCountType
  verbose : Bool

set_option linter.dupNamespace false in
/-- The constructor `inPar2_t::inPar2_t` (lines 162-177). -/
def inPar2_t.inPar2_t : inPar2_t where
  outDir := none
  mcDir := none
  faDir := none
  trgFile := none
  inFile := none
  treeFile := none
  seqID := none
  trgFiles := []
  kMerLens := []
  printCounts := 0
  maxNumAmbCodes := 5
  randSampleSize := 1000
  pseudoCountType := .recPdoCount
  verbose := false

/-- How `main` ends: `return EXIT_SUCCESS`; one of its reported errors followed
by `exit`; a stop inside the walk; undefined behaviour before the walk (a
`std::string` built from a null pointer); or a walk that did not end within the
turns allowed. -/
inductive MainExit where
  | success
  | treeLoadFailed
  | treeMissing
  | outDirMissing
  | modelIdsUnreadable
  | mcDirMissing
  | undefinedBehaviour
  | walkAborted (a : Abort)
  | outOfFuel
  deriving DecidableEq

/-- The tree that `main` loads (lines 296-318): from the file given with `-r`,
else from `refTx.tree` in the model directory. -/
def loadRefTree {Seq Score G : Type} (w : World Seq Score G) (inPar : inPar2_t) :
    Except MainExit NewickTree_t :=
  match inPar.treeFile with
  | some treeFile =>
    match w.loadTree treeFile with
    | some t => .ok t
    | none => .error .treeLoadFailed
  | none =>
    match inPar.mcDir with
    | none => .error .undefinedBehaviour
    | some mcDir =>
      match w.loadTree (mcDir ++ "/refTx.tree") with
      | some t => .ok t
      | none => .error .treeMissing

/-- The routine `main` (lines 275-633) after `parseArgs`, started with the
generator and the output directory of `st`, its walk bounded by `fuel` turns.
The k-mer length found in the model directory (lines 375-417) only selects
which model files the collaborator loads and is not modelled. -/
def main {Seq Score G : Type} (w : World Seq Score G) (inPar : inPar2_t)
    (fuel : Nat) (st : State Score G) : MainExit × State Score G :=
  let seqLen : Int := 1460
  match loadRefTree w inPar with
  | .error e => (e, st)
  | .ok nt =>
    match inPar.outDir with
    | none => (.outDirMissing, st)
    | some outDir =>
      match inPar.mcDir with
      | none => (.mcDirMissing, st)
      | some mcDir =>
        if w.modelIdsReadable (mcDir ++ "/modelIds.txt") = false then
          (.modelIdsUnreadable, st)
        else
          match bfsLoop w nt outDir inPar.randSampleSize seqLen fuel [nt.root] st with
          | (.finished, st1) => (.success, st1)
          | (.aborted a, st1) => (.walkAborted a, st1)
          | (.outOfFuel, st1) => (.outOfFuel, st1)

/-! ## Concrete inputs -/

/-- A node with the model index equal to its own pointer. -/
def mkNode (label : String) (idx : Nat) (children : List Nat) (parent : Option Nat) :
    NewickNode_t :=
  ⟨label, (idx : Int), children, parent⟩

/-- The tree of the scenario: a root with the children A, B and C, each with
two leaves. -/
def scenarioTree : NewickTree_t where
  nodes := [mkNode "root" 0 [1, 2, 3] none,
    mkNode "A" 1 [4, 5] (some 0), mkNode "B" 2 [6, 7] (some 0), mkNode "C" 3 [8, 9] (some 0),
    mkNode "a1" 4 [] (some 1), mkNode "a2" 5 [] (some 1),
    mkNode "b1" 6 [] (some 2), mkNode "b2" 7 [] (some 2),
    mkNode "c1" 8 [] (some 3), mkNode "c2" 9 [] (some 3)]
  root := 0

/-- A symbolic scoring model: the generator state counts the calls of `sample`,
the `s`-th sequence drawn from model `m` in generator state `g` is `(m, g, s)`,
and the score of a sequence `x` under model `idx` is the pair `(idx, x)`. -/
def demoModel : MarkovChains2_t (Int × Nat × Nat) (Int × Int × Nat × Nat) Nat where
  sample := fun g m _ _ => some (fun s => (m, g, s), g + 1)
  normLog10prob := fun x _ idx => some (idx, x)

/-- A world in which every file can be opened, `tree` is what every tree
file holds, and a process that ends early does so through `exit`. -/
def demoWorld (tree : NewickTree_t) :
    World (Int × Nat × Nat) (Int × Int × Nat × Nat) Nat where
  probModel := demoModel
  fOpen := fun _ => true
  loadTree := fun _ => some tree
  modelIdsReadable := fun _ => true
  keptFields := fieldCount

/-! ## Specification vocabulary -/

/-- The row `row` starts with `label` and holds the scores, under the model
`scoreIdx`, of the `count` sequences of one sample drawn from the model `srcIdx`:
`row = [score(scoreIdx, x) for x in sample(srcIdx, count, seqLen)]`. -/
def IsScoreRow {Seq Score G : Type} (pm : MarkovChains2_t Seq Score G)
    (seqLen srcIdx scoreIdx count : Int) (label : String) (row : Row Score) : Prop :=
  ∃ g seqTbl g1, pm.sample g srcIdx count seqLen = some (seqTbl, g1) ∧ row.1 = label ∧
    row.2.map some =
      (List.range count.toNat).map (fun s => pm.normLog10prob (seqTbl s) seqLen scoreIdx)

/-- The siblings of a node as the specification defines them: the children of
the parent with the node itself removed, in the original order. -/
def siblings (t : NewickTree_t) (node : Nat) : List Nat :=
  match parent t node with
  | some p => (children t p).filter (fun c => c ≠ node)
  | none => []

/-- The label of a node; empty for a pointer outside the arena. -/
def labelOf (t : NewickTree_t) (node : Nat) : String :=
  match t.nodes[node]? with
  | some nd => nd.label
  | none => ""

/-- A root with three children, two of which carry the same label. -/
def twinTree : NewickTree_t where
  nodes := [mkNode "root" 0 [1, 2, 3] none,
    mkNode "A" 1 [] (some 0), mkNode "A" 2 [] (some 0), mkNode "B" 3 [] (some 0)]
  root := 0

/-- The state in which a run starts: generator state `g`, an empty output
directory, nothing dequeued. -/
def initState {Score G : Type} (g : G) : State Score G :=
  ⟨g, [], []⟩

/-- The parameters of the scenario: `-d mc -o out -r refTx.tree -s 10`. -/
def scenarioPar : inPar2_t :=
  { inPar2_t.inPar2_t with
    outDir := some "out", mcDir := some "mc", treeFile := some "refTx.tree",
    randSampleSize := 10 }

/-- The line that the run of the scenario prints first into the file of A: the
label of A and five scores under model 4 of sequences drawn from model 4 in
generator state 0. -/
def leafRowOfA : Row (Int × Int × Nat × Nat) :=
  ("A", [(4, 4, 0, 0), (4, 4, 0, 1), (4, 4, 0, 2), (4, 4, 0, 3), (4, 4, 0, 4)])

/-- The parameters `-o out -s 10`: neither a model directory nor a tree file. -/
def noModelDirPar : inPar2_t :=
  { inPar2_t.inPar2_t with outDir := some "out", randSampleSize := 10 }

/-- The nodes at depth `d` of the tree, from left to right. -/
def level (t : NewickTree_t) : Nat → List Nat
  | 0 => [t.root]
  | d + 1 => (level t d).flatMap (children t)

/-- The breadth-first level-order listing of the tree: the nodes of depth 0,
then those of depth 1, and so on. -/
def levelOrder (t : NewickTree_t) : List Nat :=
  (List.range t.nodes.length).flatMap (level t)

/-- The worklist of the walk on its own (lines 475-482 and 619-626): the nodes
in the order in which the loop dequeues them when no turn stops the process,
or `none` when the worklist is not empty after `fuel` turns. -/
def bfsOrder (t : NewickTree_t) : Nat → List Nat → Option (List Nat)
  | _, [] => some []
  | 0, _ :: _ => none
  | fuel + 1, node :: bfs => (bfsOrder t fuel (bfs ++ children t node)).map (fun l => node :: l)

/-- The turns of the loop for the nodes of `order`, one after the other. -/
def runNodes {Seq Score G : Type} (w : World Seq Score G) (t : NewickTree_t)
    (outDir : String) (sampleSize seqLen : Int) :
    List Nat → State Score G → WalkExit × State Score G
  | [], st => (.finished, st)
  | node :: rest, st =>
    match visit w t outDir sampleSize seqLen node st with
    | .error (a, st1) => (.aborted a, st1)
    | .ok st1 => runNodes w t outDir sampleSize seqLen rest st1

/-- No two nodes of the tree carry the same label. -/
def DistinctLabels (t : NewickTree_t) : Prop :=
  (t.nodes.map (fun nd => nd.label)).Nodup

instance (t : NewickTree_t) : Decidable (DistinctLabels t) := by
  unfold DistinctLabels; infer_instance

/-- The path of the file of the node at pointer `node`. -/
def pathOf (t : NewickTree_t) (outDir : String) (node : Nat) : String :=
  outDir ++ "/" ++ labelOf t node ++ ".txt"

/-- A root with the only child A, which has the three leaves a1, a2 and a3. -/
def tripleTree : NewickTree_t where
  nodes := [mkNode "root" 0 [1] none, mkNode "A" 1 [2, 3, 4] (some 0),
    mkNode "a1" 2 [] (some 1), mkNode "a2" 3 [] (some 1), mkNode "a3" 4 [] (some 1)]
  root := 0

/-- How `parseArgs` ends the process: `-h` (`exit (EXIT_SUCCESS)`), an undefined
pseudo-count type (line 697, `exit(1)`), or unrecognized options (line 757,
`exit (EXIT_FAILURE)`). -/
inductive ParseExit where
  | help
  | undefinedPseudoCount
  | usage
  deriving DecidableEq

/-- What one call of `getopt_long` yields: an option character with its argument
(empty for an option without one; a long option with a short equivalent yields
that character, an unrecognized option yields `?`), or `0` for the long options
`--print-counts`, which stores `1` in `printCounts`, and `--help`. -/
inductive Getopt where
  | opt (c : Char) (optarg : String)
  | longPrintCounts
  | longHelp
  deriving DecidableEq

/-- The option is `-p` or `--pseudo-count-type`. -/
def Getopt.isPseudoCount : Getopt → Bool
  | .opt c _ => decide (c = 'p')
  | _ => false

/-- The `switch` of `parseArgs` for one option (lines 657-751), with `atoi` of
the C library and `parseCommaList` of CppUtilities.hh as parameters: the
parameters and `errflg` afterwards, or the exit taken. -/
def parseOpt (atoi : String → Int) (parseCommaList : String → List Int → List Int)
    (p : inPar2_t) (errflg : Nat) : Getopt → Except ParseExit (inPar2_t × Nat)
  | .longPrintCounts => .ok ({ p with printCounts := 1 }, errflg)
  | .longHelp => .ok (p, errflg)
  | .opt c optarg =>
    if c = 'b' then .ok ({ p with maxNumAmbCodes := atoi optarg }, errflg)
    else if c = 's' then .ok ({ p with randSampleSize := atoi optarg }, errflg)
    else if c = 'r' then .ok ({ p with treeFile := some optarg }, errflg)
    else if c = 'e' then .ok ({ p with seqID := some optarg }, errflg)
    else if c = 'p' then
      let pc := atoi optarg
      if pc = -1 then .ok ({ p with pseudoCountType := .zeroOffset0 }, errflg)
      else if pc = 0 then .ok ({ p with pseudoCountType := .zeroOffset1 }, errflg)
      else if pc = 1 then .ok ({ p with pseudoCountType := .zeroOffset1 }, errflg)
      else if pc = 2 then .ok ({ p with pseudoCountType := .recPdoCount }, errflg)
      else .error .undefinedPseudoCount
    else if c = 'd' then .ok ({ p with mcDir := some optarg }, errflg)
    else if c = 'f' then .ok ({ p with faDir := some optarg }, errflg)
    else if c = 'o' then .ok ({ p with outDir := some optarg }, errflg)
    else if c = 't' then .ok ({ p with trgFile := some optarg }, errflg)
    else if c = 'i' then .ok ({ p with inFile := some optarg }, errflg)
    else if c = 'k' then .ok ({ p with kMerLens := parseCommaList optarg p.kMerLens }, errflg)
    else if c = 'v' then .ok ({ p with verbose := true }, errflg)
    else if c = 'h' then .error .help
    else .ok (p, errflg + 1)

/-- The loop `while ((c = getopt_long(...)) != -1)` of `parseArgs` (line 656)
over the options that `getopt_long` yields. -/
def parseLoop (atoi : String → Int) (parseCommaList : String → List Int → List Int) :
    List Getopt → inPar2_t → Nat → Except ParseExit (inPar2_t × Nat)
  | [], p, errflg => .ok (p, errflg)
  | o :: os, p, errflg =>
    match parseOpt atoi parseCommaList p errflg o with
    | .error e => .error e
    | .ok (p1, errflg1) => parseLoop atoi parseCommaList os p1 errflg1

/-- The routine `parseArgs` (lines 639-762) on the options `opts` that
`getopt_long` yields and the arguments `rest` left after them. -/
def parseArgs (atoi : String → Int) (parseCommaList : String → List Int → List Int)
    (opts : List Getopt) (rest : List String) (p : inPar2_t) : Except ParseExit inPar2_t :=
  match parseLoop atoi parseCommaList opts p 0 with
  | .error e => .error e
  | .ok (p1, errflg) =>
    if errflg ≠ 0 then .error .usage
    else .ok { p1 with trgFiles := p1.trgFiles ++ rest }

/-- The pseudo-count scheme that the claim assigns to the value of `-p`:
`-1` to `zeroOffset0`, `0` and `1` to `zeroOffset1`, `2` to `recPdoCount`, and
none to any other integer. -/
def pseudoCountOf (pc : Int) : Option PseudoCountType :=
  if pc = -1 then some .zeroOffset0
  else if pc = 0 then some .zeroOffset1
  else if pc = 1 then some .zeroOffset1
  else if pc = 2 then some .recPdoCount
  else none

/-- The values of `atoi` on the option arguments of the examples. -/
def demoAtoi (s : String) : Int :=
  if s = "-1" then -1 else if s = "1" then 1 else if s = "2" then 2
  else if s = "7" then 7 else if s = "10" then 10 else 0

/-- The result of a step of `parseArgs`, when it is not an exit, has the
pseudo-count scheme of `p`. -/
def KeepsPseudoCount (p : inPar2_t) : Except ParseExit (inPar2_t × Nat) → Prop
  | .ok (q, _) => q.pseudoCountType = p.pseudoCountType
  | .error _ => True

theorem scoreLoop_ok {Seq Score G : Type} (pm : MarkovChains2_t Seq Score G)
    (seqTbl : Nat → Seq) (seqLen idx : Int) (ss : List Nat) :
    ∀ (acc r : List Score), scoreLoop pm seqTbl seqLen idx ss acc = .ok r →
      ∃ xs, r = acc ++ xs ∧
        xs.map some = ss.map (fun s => pm.normLog10prob (seqTbl s) seqLen idx) := by
  induction ss with
  | nil =>
    intro acc r h
    simp only [scoreLoop, Except.ok.injEq] at h
    exact ⟨[], by simp [h]⟩
  | cons s ss ih =>
    intro acc r h
    simp only [scoreLoop] at h
    cases hx : pm.normLog10prob (seqTbl s) seqLen idx with
    | none => simp [hx] at h
    | some x =>
      simp only [hx] at h
      obtain ⟨xs, hr, hxs⟩ := ih _ _ h
      exact ⟨x :: xs, by simp [hr], by simp [hxs, hx]⟩

theorem scoreLoop_nil_ok {Seq Score G : Type} (pm : MarkovChains2_t Seq Score G)
    (seqTbl : Nat → Seq) (seqLen idx : Int) (ss : List Nat) (r : List Score)
    (h : scoreLoop pm seqTbl seqLen idx ss [] = .ok r) :
    r.map some = ss.map (fun s => pm.normLog10prob (seqTbl s) seqLen idx) := by
  obtain ⟨xs, hr, hxs⟩ := scoreLoop_ok pm seqTbl seqLen idx ss [] r h
  simpa [hr] using hxs

theorem ownLoop_ok {Seq Score G : Type} (pm : MarkovChains2_t Seq Score G)
    (t : NewickTree_t) (nd : NewickNode_t) (nSeqs seqLen : Int) (leaves : List Nat) :
    ∀ (g g1 : G) (out out1 : List (Row Score)),
      ownLoop pm t nd nSeqs seqLen leaves g out = .ok (g1, out1) →
      ∃ rows, out1 = out ++ rows ∧
        List.Forall₂ (fun leaf row => ∃ sppnode, t.nodes[leaf]? = some sppnode ∧
          IsScoreRow pm seqLen sppnode.model_idx sppnode.model_idx nSeqs nd.label row)
          leaves rows := by
  induction leaves with
  | nil =>
    intro g g1 out out1 h
    simp only [ownLoop, Except.ok.injEq, Prod.mk.injEq] at h
    exact ⟨[], by simp [h.2], List.Forall₂.nil⟩
  | cons leaf rest ih =>
    intro g g1 out out1 h
    simp only [ownLoop] at h
    cases hn : t.nodes[leaf]? with
    | none => simp [hn] at h
    | some sppnode =>
      simp only [hn] at h
      cases hs : pm.sample g sppnode.model_idx nSeqs seqLen with
      | none => simp [hs] at h
      | some res =>
        obtain ⟨seqTbl, g2⟩ := res
        simp only [hs] at h
        cases hsc : scoreLoop pm seqTbl seqLen sppnode.model_idx (List.range nSeqs.toNat) [] with
        | error e => simp [hsc] at h
        | ok scores =>
          simp only [hsc] at h
          obtain ⟨rows, hout, hrows⟩ := ih _ _ _ _ h
          refine ⟨(nd.label, scores) :: rows, by simp [hout], List.Forall₂.cons ?_ hrows⟩
          exact ⟨sppnode, hn, g, seqTbl, g2, hs, rfl, scoreLoop_nil_ok pm _ _ _ _ _ hsc⟩

theorem sibLoop_ok {Seq Score G : Type} (pm : MarkovChains2_t Seq Score G)
    (t : NewickTree_t) (nd : NewickNode_t) (sampleSize seqLen : Int) (sibs : List Nat) :
    ∀ (g g1 : G) (out out1 : List (Row Score)),
      sibLoop pm t nd sampleSize seqLen sibs g out = .ok (g1, out1) →
      ∃ rows, out1 = out ++ rows ∧
        List.Forall₂ (fun sib row => ∃ sibnode, t.nodes[sib]? = some sibnode ∧
          IsScoreRow pm seqLen sibnode.model_idx nd.model_idx sampleSize sibnode.label row)
          sibs rows := by
  induction sibs with
  | nil =>
    intro g g1 out out1 h
    simp only [sibLoop, Except.ok.injEq, Prod.mk.injEq] at h
    exact ⟨[], by simp [h.2], List.Forall₂.nil⟩
  | cons sib rest ih =>
    intro g g1 out out1 h
    simp only [sibLoop] at h
    cases hn : t.nodes[sib]? with
    | none => simp [hn] at h
    | some sibnode =>
      simp only [hn] at h
      cases hs : pm.sample g sibnode.model_idx sampleSize seqLen with
      | none => simp [hs] at h
      | some res =>
        obtain ⟨seqTbl, g2⟩ := res
        simp only [hs] at h
        cases hsc : scoreLoop pm seqTbl seqLen nd.model_idx (List.range sampleSize.toNat) [] with
        | error e => simp [hsc] at h
        | ok scores =>
          simp only [hsc] at h
          obtain ⟨rows, hout, hrows⟩ := ih _ _ _ _ h
          refine ⟨(sibnode.label, scores) :: rows, by simp [hout], List.Forall₂.cons ?_ hrows⟩
          exact ⟨sibnode, hn, g, seqTbl, g2, hs, rfl, scoreLoop_nil_ok pm _ _ _ _ _ hsc⟩

theorem identifySiblings_fst (node : Nat) (cs : List Nat) :
    ∀ (i : Nat) (acc : List Nat × Int),
      (identifySiblings node cs i acc).1 = acc.1 ++ cs.filter (fun c => c ≠ node) := by
  induction cs with
  | nil => intro i acc; simp [identifySiblings]
  | cons c cs ih =>
    intro i acc
    obtain ⟨sibs, idx⟩ := acc
    by_cases hc : c = node
    · simp [identifySiblings, hc, ih]
    · simp [identifySiblings, hc, ih]

theorem siblingsOf_eq (pnode : NewickNode_t) (node : Nat) :
    siblingsOf pnode node = pnode.children_m.filter (fun c => c ≠ node) := by
  simp [siblingsOf, identifySiblings_fst]

theorem nodeRows_ok {Seq Score G : Type} (pm : MarkovChains2_t Seq Score G)
    (t : NewickTree_t) (sampleSize seqLen : Int) (node : Nat) (nd : NewickNode_t)
    (g g1 : G) (out : List (Row Score))
    (h : nodeRows pm t sampleSize seqLen node nd g = .ok (g1, out)) :
    ∃ nSeqs p pnode own sib,
      nSeqsPerSpp sampleSize (leafLabels t node).length = some nSeqs ∧
      nd.parent_m = some p ∧ t.nodes[p]? = some pnode ∧ out = own ++ sib ∧
      List.Forall₂ (fun leaf row => ∃ sppnode, t.nodes[leaf]? = some sppnode ∧
        IsScoreRow pm seqLen sppnode.model_idx sppnode.model_idx nSeqs nd.label row)
        (leafLabels t node) own ∧
      List.Forall₂ (fun sib row => ∃ sibnode, t.nodes[sib]? = some sibnode ∧
        IsScoreRow pm seqLen sibnode.model_idx nd.model_idx sampleSize sibnode.label row)
        (pnode.children_m.filter (fun c => c ≠ node)) sib := by
  simp only [nodeRows] at h
  cases hn : nSeqsPerSpp sampleSize (leafLabels t node).length with
  | none => simp [hn] at h
  | some nSeqs =>
    simp only [hn] at h
    cases ho : ownLoop pm t nd nSeqs seqLen (leafLabels t node) g [] with
    | error e => simp [ho] at h
    | ok res =>
      obtain ⟨g2, out1⟩ := res
      simp only [ho] at h
      cases hp : nd.parent_m with
      | none => simp [hp] at h
      | some p =>
        simp only [hp] at h
        cases hpn : t.nodes[p]? with
        | none => simp [hpn] at h
        | some pnode =>
          simp only [hpn] at h
          obtain ⟨own, hown, hF⟩ := ownLoop_ok pm t nd nSeqs seqLen _ _ _ _ _ ho
          obtain ⟨sib, hsib, hS⟩ := sibLoop_ok pm t nd sampleSize seqLen _ _ _ _ _ h
          rw [siblingsOf_eq] at hS
          exact ⟨nSeqs, p, pnode, own, sib, rfl, rfl, hpn, by simp [hsib, hown], hF, hS⟩

theorem FileSys.read_write {Score : Type} (fs : FileSys Score) (path : String)
    (rows : List (Row Score)) : (fs.write path rows).read path = some rows := by
  simp only [FileSys.read, FileSys.write, List.find?_append]
  have hnone : List.find? (fun e => decide (e.1 = path))
      (List.filter (fun e => decide (e.1 ≠ path)) fs) = none := by
    rw [List.find?_eq_none]
    intro e he
    simp only [List.mem_filter, decide_eq_true_eq] at he
    simpa using he.2
  simp [hnone]

theorem FileSys.write_write {Score : Type} (fs : FileSys Score) (path : String)
    (rows rows1 : List (Row Score)) :
    (fs.write path rows).write path rows1 = fs.write path rows1 := by
  simp [FileSys.write, List.filter_append, List.filter_filter]

theorem FileSys.paths_write {Score : Type} (fs : FileSys Score) (path : String)
    (rows : List (Row Score)) :
    (fs.write path rows).paths = fs.paths.filter (fun q => q ≠ path) ++ [path] := by
  simp [FileSys.write, FileSys.paths, List.filter_map, Function.comp_def]

theorem processNode_ok {Seq Score G : Type} (w : World Seq Score G) (t : NewickTree_t)
    (outDir : String) (sampleSize seqLen : Int) (node : Nat) (nd : NewickNode_t)
    (st st1 : State Score G)
    (h : processNode w t outDir sampleSize seqLen node nd st = .ok st1) :
    ∃ out, nodeRows w.probModel t sampleSize seqLen node nd st.gen = .ok (st1.gen, out) ∧
      st1.fs = st.fs.write (outFile outDir nd) out ∧ st1.dequeued = st.dequeued := by
  simp only [processNode] at h
  split at h
  · simp at h
  · cases hr : nodeRows w.probModel t sampleSize seqLen node nd st.gen with
    | error e => simp [hr] at h
    | ok res =>
      obtain ⟨g1, out⟩ := res
      simp only [hr, Except.ok.injEq] at h
      subst h
      exact ⟨out, rfl, by simp [FileSys.write_write], rfl⟩

theorem visit_ok {Seq Score G : Type} (w : World Seq Score G) (t : NewickTree_t)
    (outDir : String) (sampleSize seqLen : Int) (node : Nat) (nd : NewickNode_t)
    (st st1 : State Score G) (hnd : t.nodes[node]? = some nd) (hroot : node ≠ t.root)
    (h : visit w t outDir sampleSize seqLen node st = .ok st1) :
    ∃ out, nodeRows w.probModel t sampleSize seqLen node nd st.gen = .ok (st1.gen, out) ∧
      st1.fs = st.fs.write (outFile outDir nd) out ∧
      st1.dequeued = st.dequeued ++ [node] := by
  simp only [visit, hnd, hroot, ne_eq, not_false_eq_true, if_true] at h
  obtain ⟨out, h1, h2, h3⟩ := processNode_ok w t outDir sampleSize seqLen node nd _ _ h
  exact ⟨out, h1, h2, h3⟩

theorem forall₂_mem_right {α β : Type} {R : α → β → Prop} {l₁ : List α} {l₂ : List β}
    (h : List.Forall₂ R l₁ l₂) : ∀ b ∈ l₂, ∃ a ∈ l₁, R a b := by
  induction h with
  | nil => intro b hb; simp at hb
  | cons hab _ ih =>
    intro b hb
    rcases List.mem_cons.1 hb with rfl | hb
    · exact ⟨_, List.mem_cons_self _ _, hab⟩
    · obtain ⟨a, ha, hR⟩ := ih b hb
      exact ⟨a, List.mem_cons_of_mem _ ha, hR⟩

theorem nSeqsPerSpp_eq_ceil (sampleSize : Int) (nSpp : Nat) (h : nSpp ≠ 0) :
    nSeqsPerSpp sampleSize nSpp = some ⌈(sampleSize : ℚ) / (nSpp : ℚ)⌉ := by
  have hfl := Rat.floor_intCast_div_natCast (-sampleSize) nSpp
  have hneg : ((-sampleSize : ℤ) : ℚ) / (nSpp : ℚ) = -((sampleSize : ℚ) / (nSpp : ℚ)) := by
    push_cast; ring
  rw [hneg, Int.floor_neg] at hfl
  simp only [nSeqsPerSpp, h, if_false, Option.some.injEq]
  omega

theorem IsScoreRow.length_eq {Seq Score G : Type} {pm : MarkovChains2_t Seq Score G}
    {seqLen srcIdx scoreIdx count : Int} {label : String} {row : Row Score}
    (h : IsScoreRow pm seqLen srcIdx scoreIdx count label row) :
    row.2.length = count.toNat := by
  obtain ⟨g, seqTbl, g1, -, -, hmap⟩ := h
  simpa using congrArg List.length hmap

theorem siblings_eq (t : NewickTree_t) (node p : Nat) (nd pnode : NewickNode_t)
    (hnd : t.nodes[node]? = some nd) (hp : nd.parent_m = some p)
    (hpn : t.nodes[p]? = some pnode) :
    siblings t node = pnode.children_m.filter (fun c => c ≠ node) := by
  simp [siblings, parent, children, hnd, hp, hpn]

/-- The file of a node after its turn: the own-clade lines `own`, one per leaf
descendant, followed by the sibling lines `sib`, one per sibling. -/
theorem visit_file {Seq Score G : Type} (w : World Seq Score G) (t : NewickTree_t)
    (outDir : String) (sampleSize seqLen : Int) (node : Nat) (nd : NewickNode_t)
    (st st1 : State Score G) (hnd : t.nodes[node]? = some nd) (hroot : node ≠ t.root)
    (h : visit w t outDir sampleSize seqLen node st = .ok st1) :
    ∃ nSeqs own sib,
      nSeqsPerSpp sampleSize (leafLabels t node).length = some nSeqs ∧
      st1.fs.read (outFile outDir nd) = some (own ++ sib) ∧
      own.length = (leafLabels t node).length ∧
      List.Forall₂ (fun leaf row => ∃ sppnode, t.nodes[leaf]? = some sppnode ∧
        IsScoreRow w.probModel seqLen sppnode.model_idx sppnode.model_idx nSeqs nd.label row)
        (leafLabels t node) own ∧
      List.Forall₂ (fun sib row => ∃ sibnode, t.nodes[sib]? = some sibnode ∧
        IsScoreRow w.probModel seqLen sibnode.model_idx nd.model_idx sampleSize
          sibnode.label row)
        (siblings t node) sib := by
  obtain ⟨out, hrows, hfs, -⟩ := visit_ok w t outDir sampleSize seqLen node nd st st1 hnd hroot h
  obtain ⟨nSeqs, p, pnode, own, sib, hn, hp, hpn, hout, hown, hsib⟩ :=
    nodeRows_ok w.probModel t sampleSize seqLen node nd _ _ _ hrows
  refine ⟨nSeqs, own, sib, hn, ?_, hown.length_eq.symm, hown, ?_⟩
  · rw [hfs, FileSys.read_write, hout]
  · rw [siblings_eq t node p nd pnode hnd hp hpn]
    exact hsib

/-- C2: for a node other than the root, the line printed for each sibling in the
file of the node carries the label of the sibling and holds the scores, under
the model of the node, of the `sampleSize` sequences of one sample drawn from
the model of the sibling; there is one such line per sibling, in sibling
order, after the own-clade lines. -/
theorem sibling_row_scores {Seq Score G : Type} (w : World Seq Score G) (t : NewickTree_t)
    (outDir : String) (sampleSize seqLen : Int) (node : Nat) (nd : NewickNode_t)
    (st st1 : State Score G) (hnd : t.nodes[node]? = some nd) (hroot : node ≠ t.root)
    (h : visit w t outDir sampleSize seqLen node st = .ok st1) :
    ∃ rows, st1.fs.read (outFile outDir nd) = some rows ∧
      List.Forall₂ (fun sib row => ∃ sibnode, t.nodes[sib]? = some sibnode ∧
        IsScoreRow w.probModel seqLen sibnode.model_idx nd.model_idx sampleSize
          sibnode.label row ∧ row.2.length = sampleSize.toNat)
        (siblings t node) (rows.drop (leafLabels t node).length) := by
  obtain ⟨nSeqs, own, sib, -, hread, hlen, -, hsib⟩ :=
    visit_file w t outDir sampleSize seqLen node nd st st1 hnd hroot h
  refine ⟨own ++ sib, hread, ?_⟩
  rw [← hlen, List.drop_left]
  refine hsib.imp ?_
  rintro s row ⟨sibnode, hs, hrow⟩
  exact ⟨sibnode, hs, hrow, hrow.length_eq⟩

/-- C3: for a node other than the root with `nSpp` leaf descendants, the file of
the node begins with exactly `nSpp` lines, the `k`-th of them printed for the
`k`-th leaf descendant (it holds scores of a sample drawn from the model of that
leaf), and each of them has the label of the node as its first field. -/
theorem own_block_rows {Seq Score G : Type} (w : World Seq Score G) (t : NewickTree_t)
    (outDir : String) (sampleSize seqLen : Int) (node : Nat) (nd : NewickNode_t)
    (st st1 : State Score G) (hnd : t.nodes[node]? = some nd) (hroot : node ≠ t.root)
    (h : visit w t outDir sampleSize seqLen node st = .ok st1) :
    ∃ rows nSeqs, st1.fs.read (outFile outDir nd) = some rows ∧
      (rows.take (leafLabels t node).length).length = (leafLabels t node).length ∧
      (∀ row ∈ rows.take (leafLabels t node).length, row.1 = nd.label) ∧
      List.Forall₂ (fun leaf row => ∃ sppnode scoreIdx, t.nodes[leaf]? = some sppnode ∧
        IsScoreRow w.probModel seqLen sppnode.model_idx scoreIdx nSeqs nd.label row)
        (leafLabels t node) (rows.take (leafLabels t node).length) := by
  obtain ⟨nSeqs, own, sib, -, hread, hlen, hown, -⟩ :=
    visit_file w t outDir sampleSize seqLen node nd st st1 hnd hroot h
  have hF : List.Forall₂ (fun leaf row => ∃ sppnode scoreIdx, t.nodes[leaf]? = some sppnode ∧
      IsScoreRow w.probModel seqLen sppnode.model_idx scoreIdx nSeqs nd.label row)
      (leafLabels t node) own := by
    refine hown.imp ?_
    rintro leaf row ⟨sppnode, hs, hrow⟩
    exact ⟨sppnode, sppnode.model_idx, hs, hrow⟩
  refine ⟨own ++ sib, nSeqs, hread, ?_, ?_, ?_⟩
  · rw [← hlen, List.take_left]
  · rw [← hlen, List.take_left]
    intro row hrow
    obtain ⟨leaf, -, sppnode, -, g, seqTbl, g1, -, h1, -⟩ := forall₂_mem_right hown row hrow
    exact h1
  · rw [← hlen, List.take_left]
    exact hF

theorem TreeInv.parent_of_ne_root {t : NewickTree_t} (hT : TreeInv t) {node : Nat}
    (hlt : node < t.nodes.length) (hroot : node ≠ t.root) :
    ∃ p, p < t.nodes.length ∧ parent t node = some p ∧ node ∈ children t p ∧
      (children t p).Nodup := by
  obtain ⟨-, -, -, hnodup, hpar, -⟩ := hT
  obtain ⟨p, hp, hpp, hmem⟩ := hpar node hlt hroot
  exact ⟨p, hp, hpp, hmem, hnodup p hp⟩

theorem lt_of_getElem?_eq_some {α : Type} {l : List α} {i : Nat} {a : α}
    (h : l[i]? = some a) : i < l.length := by
  by_contra hlt
  rw [List.getElem?_eq_none (by omega)] at h
  simp at h

theorem length_filter_ne_of_nodup {l : List Nat} (hl : l.Nodup) {a : Nat} (ha : a ∈ l) :
    (l.filter (fun c => c ≠ a)).length = l.length - 1 := by
  have h1 : l.filter (fun c => c ≠ a) = l.erase a := by
    rw [hl.erase_eq_filter]
    congr 1
    funext c
    by_cases hca : c = a <;> simp [hca]
  rw [h1, List.length_erase_of_mem ha]

/-- C4: for a node other than the root of a tree, the lines after the own-clade
block of its file are exactly one line per sibling, where the siblings are the
children of the parent with the node itself removed by pointer, in the original
order: the block has one line fewer than the parent has children, none when the
node is an only child, and every other child of the parent is a sibling
whatever its label. -/
theorem sibling_block_rows {Seq Score G : Type} (w : World Seq Score G) (t : NewickTree_t)
    (outDir : String) (sampleSize seqLen : Int) (node : Nat) (nd : NewickNode_t)
    (st st1 : State Score G) (hT : TreeInv t) (hnd : t.nodes[node]? = some nd)
    (hroot : node ≠ t.root)
    (h : visit w t outDir sampleSize seqLen node st = .ok st1) :
    ∃ p rows, parent t node = some p ∧ st1.fs.read (outFile outDir nd) = some rows ∧
      siblings t node = (children t p).filter (fun c => c ≠ node) ∧
      List.Forall₂ (fun sib row => row.1 = labelOf t sib) (siblings t node)
        (rows.drop (leafLabels t node).length) ∧
      (rows.drop (leafLabels t node).length).length = (children t p).length - 1 ∧
      (children t p = [node] → rows.drop (leafLabels t node).length = []) ∧
      (∀ c ∈ children t p, c ≠ node → c ∈ siblings t node) := by
  obtain ⟨p, -, hp, hmem, hnodup⟩ := hT.parent_of_ne_root (lt_of_getElem?_eq_some hnd) hroot
  obtain ⟨nSeqs, own, sib, -, hread, hlen, -, hsib⟩ :=
    visit_file w t outDir sampleSize seqLen node nd st st1 hnd hroot h
  have hsibs : siblings t node = (children t p).filter (fun c => c ≠ node) := by
    simp [siblings, hp]
  have hdrop : (own ++ sib).drop (leafLabels t node).length = sib := by
    rw [← hlen, List.drop_left]
  have hlensib : sib.length = (children t p).length - 1 := by
    rw [← hsib.length_eq, hsibs, length_filter_ne_of_nodup hnodup hmem]
  refine ⟨p, own ++ sib, hp, hread, hsibs, ?_, ?_, ?_, ?_⟩
  · rw [hdrop]
    refine hsib.imp ?_
    rintro s row ⟨sibnode, hs, g, seqTbl, g1, -, hlabel, -⟩
    simp [labelOf, hs, hlabel]
  · rw [hdrop, hlensib]
  · intro hone
    rw [hdrop]
    apply List.eq_nil_of_length_eq_zero
    rw [hlensib, hone]
    rfl
  · intro c hc hne
    rw [hsibs]
    simp [hc, hne]

/-- C5: for a sample size of at least one and a node other than the root with at
least one leaf descendant, every own-clade line of the file of the node holds
exactly `ceil(sampleSize / nSpp)` scores and every sibling line holds exactly
`sampleSize` scores. -/
theorem row_score_counts {Seq Score G : Type} (w : World Seq Score G) (t : NewickTree_t)
    (outDir : String) (sampleSize seqLen : Int) (node : Nat) (nd : NewickNode_t)
    (st st1 : State Score G) (hS : 1 ≤ sampleSize) (hSpp : 1 ≤ (leafLabels t node).length)
    (hnd : t.nodes[node]? = some nd) (hroot : node ≠ t.root)
    (h : visit w t outDir sampleSize seqLen node st = .ok st1) :
    ∃ rows, st1.fs.read (outFile outDir nd) = some rows ∧
      (∀ row ∈ rows.take (leafLabels t node).length,
        (row.2.length : Int) = ⌈(sampleSize : ℚ) / ((leafLabels t node).length : ℚ)⌉) ∧
      (∀ row ∈ rows.drop (leafLabels t node).length, (row.2.length : Int) = sampleSize) := by
  obtain ⟨nSeqs, own, sib, hn, hread, hlen, hown, hsib⟩ :=
    visit_file w t outDir sampleSize seqLen node nd st st1 hnd hroot h
  rw [nSeqsPerSpp_eq_ceil sampleSize _ (by omega)] at hn
  simp only [Option.some.injEq] at hn
  have hpos : 0 ≤ nSeqs := by
    rw [← hn]
    apply Int.ceil_nonneg
    have h1 : (0 : ℚ) ≤ (sampleSize : ℚ) := by exact_mod_cast (by omega : (0 : Int) ≤ sampleSize)
    positivity
  refine ⟨own ++ sib, hread, ?_, ?_⟩
  · rw [← hlen, List.take_left]
    intro row hrow
    obtain ⟨leaf, -, sppnode, -, hr⟩ := forall₂_mem_right hown row hrow
    rw [hr.length_eq, Int.toNat_of_nonneg hpos, ← hn, hlen]
  · rw [← hlen, List.drop_left]
    intro row hrow
    obtain ⟨s, -, sibnode, -, hr⟩ := forall₂_mem_right hsib row hrow
    rw [hr.length_eq, Int.toNat_of_nonneg (by omega)]

/-! ## Concrete runs -/

/-- Witness of C2: in the scenario tree with sample size 10, the file of A
(node 1) ends with the lines of its siblings B and C. -/
theorem sibling_row_scores_witness :
    ∃ st1, visit (demoWorld scenarioTree) scenarioTree "out" 10 1460 1 (initState 0) = .ok st1 ∧
      ∃ rows, st1.fs.read (outFile "out" (mkNode "A" 1 [4, 5] (some 0))) = some rows ∧
        List.Forall₂ (fun sib row => ∃ sibnode, scenarioTree.nodes[sib]? = some sibnode ∧
          IsScoreRow (demoWorld scenarioTree).probModel 1460 sibnode.model_idx
            (mkNode "A" 1 [4, 5] (some 0)).model_idx 10 sibnode.label row ∧
          row.2.length = (10 : Int).toNat)
          (siblings scenarioTree 1) (rows.drop (leafLabels scenarioTree 1).length) :=
  ⟨_, rfl, sibling_row_scores (demoWorld scenarioTree) scenarioTree "out" 10 1460 1 _
    (initState 0) _ rfl (by decide) rfl⟩

/-- Witness of C3: in the scenario tree with sample size 10, the file of A
(node 1, two leaf descendants) begins with two lines labelled A. -/
theorem own_block_rows_witness :
    ∃ st1, visit (demoWorld scenarioTree) scenarioTree "out" 10 1460 1 (initState 0) = .ok st1 ∧
      ∃ rows nSeqs, st1.fs.read (outFile "out" (mkNode "A" 1 [4, 5] (some 0))) = some rows ∧
        (rows.take (leafLabels scenarioTree 1).length).length =
          (leafLabels scenarioTree 1).length ∧
        (∀ row ∈ rows.take (leafLabels scenarioTree 1).length,
          row.1 = (mkNode "A" 1 [4, 5] (some 0)).label) ∧
        List.Forall₂ (fun leaf row => ∃ sppnode scoreIdx,
          scenarioTree.nodes[leaf]? = some sppnode ∧
          IsScoreRow (demoWorld scenarioTree).probModel 1460 sppnode.model_idx scoreIdx nSeqs
            (mkNode "A" 1 [4, 5] (some 0)).label row)
          (leafLabels scenarioTree 1) (rows.take (leafLabels scenarioTree 1).length) :=
  ⟨_, rfl, own_block_rows (demoWorld scenarioTree) scenarioTree "out" 10 1460 1 _
    (initState 0) _ rfl (by decide) rfl⟩

/-- Witness of C4: in a tree whose root has the children A, A and B, the file of
the first A (node 1) has two sibling lines, one of them for the other A. -/
theorem sibling_block_rows_witness :
    TreeInv twinTree ∧
    ∃ st1, visit (demoWorld twinTree) twinTree "out" 10 1460 1 (initState 0) = .ok st1 ∧
      ∃ p rows, parent twinTree 1 = some p ∧
        st1.fs.read (outFile "out" (mkNode "A" 1 [] (some 0))) = some rows ∧
        siblings twinTree 1 = (children twinTree p).filter (fun c => c ≠ 1) ∧
        List.Forall₂ (fun sib row => row.1 = labelOf twinTree sib) (siblings twinTree 1)
          (rows.drop (leafLabels twinTree 1).length) ∧
        (rows.drop (leafLabels twinTree 1).length).length = (children twinTree p).length - 1 ∧
        (children twinTree p = [1] → rows.drop (leafLabels twinTree 1).length = []) ∧
        (∀ c ∈ children twinTree p, c ≠ 1 → c ∈ siblings twinTree 1) :=
  ⟨by decide, _, rfl, sibling_block_rows (demoWorld twinTree) twinTree "out" 10 1460 1 _
    (initState 0) _ (by decide) rfl (by decide) rfl⟩

/-- Witness of C5, the scenario of the specification: a root with the children
A, B and C of two leaves each and sample size 10; the file of A has two
own-clade lines of 5 scores and the sibling lines of B and C of 10 scores. -/
theorem row_score_counts_witness :
    ∃ st1, visit (demoWorld scenarioTree) scenarioTree "out" 10 1460 1 (initState 0) = .ok st1 ∧
      (∃ rows, st1.fs.read (outFile "out" (mkNode "A" 1 [4, 5] (some 0))) = some rows ∧
        (∀ row ∈ rows.take (leafLabels scenarioTree 1).length,
          (row.2.length : Int) = ⌈((10 : Int) : ℚ) / ((leafLabels scenarioTree 1).length : ℚ)⌉) ∧
        (∀ row ∈ rows.drop (leafLabels scenarioTree 1).length, (row.2.length : Int) = 10)) ∧
      (st1.fs.read "out/A.txt").map (List.map (fun row => (row.1, row.2.length))) =
        some [("A", 5), ("A", 5), ("B", 10), ("C", 10)] :=
  ⟨_, rfl, row_score_counts (demoWorld scenarioTree) scenarioTree "out" 10 1460 1 _
    (initState 0) _ (by decide) (by decide) rfl (by decide) rfl, by rfl⟩

/-- C1, the run at the failing input: in the scenario tree with sample size 10
the first line of the file of A (node 1, model 1) is the line of its leaf a1
(node 4, model 4).  It holds the scores under model 4, the model of the leaf, of
the sample drawn from model 4; it is not the list of scores under model 1, the
model of A, of any sample drawn from model 4. -/
theorem own_row_scored_under_leaf_model :
    ∃ st1 rest,
      visit (demoWorld scenarioTree) scenarioTree "out" 10 1460 1 (initState 0) = .ok st1 ∧
      st1.fs.read "out/A.txt" = some (leafRowOfA :: rest) ∧
      IsScoreRow demoModel 1460 4 4 5 "A" leafRowOfA ∧
      ¬ IsScoreRow demoModel 1460 4 1 5 "A" leafRowOfA := by
  refine ⟨_, _, rfl, rfl, ?_, ?_⟩
  · exact ⟨0, fun s => (4, 0, s), 1, rfl, rfl, rfl⟩
  · rintro ⟨g, seqTbl, g1, -, -, hmap⟩
    have h0 := congrArg (fun l => l[0]?) hmap
    simp [demoModel, leafRowOfA, List.range_succ_eq_map] at h0

/-- C9, the run at the failing input: in the scenario tree with sample size 10
the run succeeds and the file of A (node 1), which has two siblings, has 4
lines, not 3. -/
theorem internal_node_row_count :
    ∃ st1, main (demoWorld scenarioTree) scenarioPar 10 (initState 0) = (.success, st1) ∧
      (siblings scenarioTree 1).length = 2 ∧
      (st1.fs.read "out/A.txt").map List.length = some 4 :=
  ⟨_, rfl, by decide, by rfl⟩

/-! ## Missing directories -/

/-- Without a tree file and without a model directory `main` builds a
`std::string` from the null `mcDir` (line 309) before any of its checks. -/
theorem main_of_no_treeFile_no_mcDir {Seq Score G : Type} (w : World Seq Score G)
    (inPar : inPar2_t) (fuel : Nat) (st : State Score G)
    (hr : inPar.treeFile = none) (hd : inPar.mcDir = none) :
    main w inPar fuel st = (.undefinedBehaviour, st) := by
  simp [main, loadRefTree, hr, hd]

/-- With the model directory or the output directory missing `main` does not
reach the walk: the state is untouched and the exit is not a success; when a
tree file was given the exit is one of the reported errors. -/
theorem main_of_missing_dir {Seq Score G : Type} (w : World Seq Score G)
    (inPar : inPar2_t) (fuel : Nat) (st : State Score G)
    (h : inPar.mcDir = none ∨ inPar.outDir = none) :
    (main w inPar fuel st).2 = st ∧ (main w inPar fuel st).1 ≠ .success ∧
      (inPar.treeFile ≠ none →
        (main w inPar fuel st).1 = .treeLoadFailed ∨
        (main w inPar fuel st).1 = .outDirMissing ∨
        (main w inPar fuel st).1 = .mcDirMissing) := by
  cases hr : inPar.treeFile with
  | none =>
    cases hd : inPar.mcDir with
    | none => simp [main, loadRefTree, hr, hd]
    | some mcDir =>
      have ho : inPar.outDir = none := by simpa [hd] using h
      cases hl : w.loadTree (mcDir ++ "/refTx.tree") <;> simp [main, loadRefTree, hr, hd, hl, ho]
  | some treeFile =>
    cases hl : w.loadTree treeFile with
    | none => simp [main, loadRefTree, hr, hl]
    | some nt =>
      cases ho : inPar.outDir with
      | none => simp [main, loadRefTree, hr, hl, ho]
      | some outDir =>
        have hd : inPar.mcDir = none := by simpa [ho] using h
        simp [main, loadRefTree, hr, hl, ho, hd]

/-- C8, the run at the failing input: with `-o out` but neither `-d` nor `-r`,
`main` ends in undefined behaviour (a `std::string` built from the null `mcDir`
at line 309), not in the configuration error of lines 397-403; no node was
dequeued and no file was opened. -/
theorem main_null_mcDir_not_reported :
    main (demoWorld scenarioTree) noModelDirPar 10 (initState 0) =
      (.undefinedBehaviour, initState 0) ∧
    noModelDirPar.mcDir = none ∧ noModelDirPar.treeFile = none :=
  ⟨rfl, rfl, rfl⟩

/-! ## The worklist -/

theorem bfsOrder_cons (t : NewickTree_t) (fuel node : Nat) (bfs : List Nat) :
    bfsOrder t (fuel + 1) (node :: bfs) =
      (bfsOrder t fuel (bfs ++ children t node)).map (fun l => node :: l) := rfl

theorem bfsOrder_nil (t : NewickTree_t) (fuel : Nat) : bfsOrder t fuel [] = some [] := by
  cases fuel <;> rfl

theorem bfsOrder_mono (t : NewickTree_t) (k : Nat) :
    ∀ (fuel : Nat) (q order : List Nat), bfsOrder t fuel q = some order →
      bfsOrder t (fuel + k) q = some order := by
  intro fuel
  induction fuel with
  | zero =>
    intro q order h
    cases q with
    | nil => rw [bfsOrder_nil] at h ⊢; exact h
    | cons a q => simp [bfsOrder] at h
  | succ fuel ih =>
    intro q order h
    cases q with
    | nil => rw [bfsOrder_nil] at h ⊢; exact h
    | cons a q =>
      rw [bfsOrder_cons] at h
      rw [show fuel + 1 + k = (fuel + k) + 1 by omega, bfsOrder_cons]
      cases hq : bfsOrder t fuel (q ++ children t a) with
      | none => simp [hq] at h
      | some l =>
        rw [ih _ _ hq]
        simpa [hq] using h

/-- A block `q` at the front of the worklist is dequeued as it stands, and the
children of its nodes join the end of the worklist in the same order. -/
theorem bfsOrder_append (t : NewickTree_t) (q : List Nat) :
    ∀ (r : List Nat) (fuel : Nat),
      bfsOrder t (fuel + q.length) (q ++ r) =
        (bfsOrder t fuel (r ++ q.flatMap (children t))).map (fun l => q ++ l) := by
  induction q with
  | nil =>
    intro r fuel
    simp
  | cons a q ih =>
    intro r fuel
    rw [List.length_cons, ← Nat.add_assoc, List.cons_append, bfsOrder_cons, List.append_assoc,
      ih (r ++ children t a) fuel, Option.map_map, List.flatMap_cons, List.append_assoc]
    rfl

/-- The levels from depth `d` on, `k` of them. -/
theorem bfsOrder_level (t : NewickTree_t) (k : Nat) :
    ∀ d, level t (d + k) = [] →
      bfsOrder t ((List.range k).flatMap (fun j => level t (d + j))).length (level t d) =
        some ((List.range k).flatMap (fun j => level t (d + j))) := by
  induction k with
  | zero =>
    intro d h
    rw [Nat.add_zero] at h
    simp [h, bfsOrder_nil]
  | succ k ih =>
    intro d h
    have hsplit : (List.range (k + 1)).flatMap (fun j => level t (d + j)) =
        level t d ++ (List.range k).flatMap (fun j => level t (d + 1 + j)) := by
      rw [List.range_succ_eq_map, List.flatMap_cons, List.flatMap_map]
      simp [Nat.add_assoc, Nat.add_comm 1]
    have hnext : level t (d + 1 + k) = [] := by
      rw [← h]; congr 1; omega
    have hA := bfsOrder_append t (level t d) []
      ((List.range k).flatMap (fun j => level t (d + 1 + j))).length
    rw [List.append_nil, List.nil_append] at hA
    rw [hsplit, List.length_append, Nat.add_comm, hA]
    change Option.map _ (bfsOrder t _ (level t (d + 1))) = _
    rw [ih (d + 1) hnext]
    rfl

theorem bfsLoop_nil {Seq Score G : Type} (w : World Seq Score G) (t : NewickTree_t)
    (outDir : String) (sampleSize seqLen : Int) (fuel : Nat) (st : State Score G) :
    bfsLoop w t outDir sampleSize seqLen fuel [] st = (.finished, st) := by
  cases fuel <;> rfl

/-- When the worklist empties within `fuel` turns, the loop runs the turns of
the nodes in the order of the worklist. -/
theorem bfsLoop_eq_runNodes {Seq Score G : Type} (w : World Seq Score G) (t : NewickTree_t)
    (outDir : String) (sampleSize seqLen : Int) :
    ∀ (fuel : Nat) (q order : List Nat) (st : State Score G),
      bfsOrder t fuel q = some order →
      bfsLoop w t outDir sampleSize seqLen fuel q st =
        runNodes w t outDir sampleSize seqLen order st := by
  intro fuel
  induction fuel with
  | zero =>
    intro q order st h
    cases q with
    | nil =>
      rw [bfsOrder_nil] at h
      simp only [Option.some.injEq] at h
      subst h
      rfl
    | cons a q => simp [bfsOrder] at h
  | succ fuel ih =>
    intro q order st h
    cases q with
    | nil =>
      rw [bfsOrder_nil] at h
      simp only [Option.some.injEq] at h
      subst h
      rfl
    | cons a q =>
      rw [bfsOrder_cons] at h
      cases hq : bfsOrder t fuel (q ++ children t a) with
      | none => simp [hq] at h
      | some l =>
        simp only [hq, Option.map_some', Option.some.injEq] at h
        subst h
        simp only [bfsLoop, runNodes]
        cases hv : visit w t outDir sampleSize seqLen a st with
        | error e => rfl
        | ok st1 => exact ih _ _ _ hq

/-! ## The levels of a tree -/

theorem ancestor_root_unique (t : NewickTree_t) (hroot : parent t t.root = none) :
    ∀ (d e i : Nat), ancestor t d i = some t.root → ancestor t e i = some t.root → d = e := by
  intro d
  induction d with
  | zero =>
    intro e i hd he
    simp only [ancestor, Option.some.injEq] at hd
    subst hd
    cases e with
    | zero => rfl
    | succ e => simp [ancestor, hroot] at he
  | succ d ih =>
    intro e i hd he
    simp only [ancestor] at hd
    cases hp : parent t i with
    | none => simp [hp] at hd
    | some p =>
      simp only [hp] at hd
      cases e with
      | zero =>
        simp only [ancestor, Option.some.injEq] at he
        subst he
        simp [hroot] at hp
      | succ e =>
        simp only [ancestor, hp] at he
        rw [ih e p hd he]

theorem mem_level_iff {t : NewickTree_t} (hT : TreeInv t) :
    ∀ (d i : Nat), i ∈ level t d ↔ i < t.nodes.length ∧ ancestor t d i = some t.root := by
  obtain ⟨hrlt, hroot, hchild, -, hpar, -⟩ := hT
  intro d
  induction d with
  | zero =>
    intro i
    simp only [level, List.mem_singleton, ancestor, Option.some.injEq]
    constructor
    · rintro rfl; exact ⟨hrlt, rfl⟩
    · rintro ⟨-, h⟩; exact h
  | succ d ih =>
    intro i
    simp only [level, List.mem_flatMap, ancestor]
    constructor
    · rintro ⟨p, hp, hi⟩
      obtain ⟨hplt, hanc⟩ := (ih p).1 hp
      obtain ⟨hilt, hip⟩ := hchild p hplt i hi
      exact ⟨hilt, by simp [hip, hanc]⟩
    · rintro ⟨hilt, hanc⟩
      cases hp : parent t i with
      | none => simp [hp] at hanc
      | some p =>
        simp only [hp] at hanc
        have hne : i ≠ t.root := by
          rintro rfl
          simp [hroot] at hp
        obtain ⟨p1, hp1lt, hp1, hmem⟩ := hpar i hilt hne
        rw [hp] at hp1
        simp only [Option.some.injEq] at hp1
        subst hp1
        exact ⟨p, (ih p).2 ⟨hp1lt, hanc⟩, hmem⟩

theorem level_nodup {t : NewickTree_t} (hT : TreeInv t) : ∀ d, (level t d).Nodup := by
  have hmem := mem_level_iff hT
  obtain ⟨-, -, hchild, hnodup, -, -⟩ := hT
  intro d
  induction d with
  | zero => simp [level]
  | succ d ih =>
    simp only [level]
    rw [List.nodup_flatMap]
    refine ⟨fun x hx => hnodup x ((hmem d x).1 hx).1, ?_⟩
    refine List.Pairwise.imp_of_mem ?_ ih
    intro a b ha hb hab c hca hcb
    have h1 := (hchild a ((hmem d a).1 ha).1 c hca).2
    have h2 := (hchild b ((hmem d b).1 hb).1 c hcb).2
    rw [h1] at h2
    exact hab (Option.some.inj h2)

theorem levelOrder_nodup {t : NewickTree_t} (hT : TreeInv t) : (levelOrder t).Nodup := by
  have hmem := mem_level_iff hT
  have hroot := hT.2.1
  simp only [levelOrder]
  rw [List.nodup_flatMap]
  refine ⟨fun d _ => level_nodup hT d, ?_⟩
  refine List.Pairwise.imp_of_mem ?_ (List.nodup_range t.nodes.length)
  intro d e _ _ hde c hcd hce
  exact hde (ancestor_root_unique t hroot d e c ((hmem d c).1 hcd).2 ((hmem e c).1 hce).2)

theorem mem_levelOrder {t : NewickTree_t} (hT : TreeInv t) (i : Nat) :
    i ∈ levelOrder t ↔ i < t.nodes.length := by
  have hmem := mem_level_iff hT
  simp only [levelOrder, List.mem_flatMap, List.mem_range]
  constructor
  · rintro ⟨d, -, hi⟩
    exact ((hmem d i).1 hi).1
  · intro hi
    obtain ⟨d, hd, hanc⟩ := hT.2.2.2.2.2 i hi
    exact ⟨d, hd, (hmem d i).2 ⟨hi, hanc⟩⟩

theorem level_eq_nil {t : NewickTree_t} (hT : TreeInv t) (d : Nat)
    (hd : t.nodes.length ≤ d) : level t d = [] := by
  rw [List.eq_nil_iff_forall_not_mem]
  intro i hi
  obtain ⟨hilt, hanc⟩ := (mem_level_iff hT d i).1 hi
  obtain ⟨e, he, hanc1⟩ := hT.2.2.2.2.2 i hilt
  have := ancestor_root_unique t hT.2.1 d e i hanc hanc1
  omega

theorem levelOrder_perm {t : NewickTree_t} (hT : TreeInv t) :
    (levelOrder t).Perm (List.range t.nodes.length) := by
  rw [List.perm_ext_iff_of_nodup (levelOrder_nodup hT) (List.nodup_range _)]
  intro i
  rw [mem_levelOrder hT, List.mem_range]

theorem levelOrder_length {t : NewickTree_t} (hT : TreeInv t) :
    (levelOrder t).length = t.nodes.length := by
  rw [(levelOrder_perm hT).length_eq, List.length_range]

/-- On a tree the worklist seeded with the root empties within as many turns as
there are nodes, and the nodes leave it in level order. -/
theorem bfsOrder_root {t : NewickTree_t} (hT : TreeInv t) (fuel : Nat)
    (hfuel : t.nodes.length ≤ fuel) :
    bfsOrder t fuel [t.root] = some (levelOrder t) := by
  have h := bfsOrder_level t t.nodes.length 0 (by
    rw [Nat.zero_add]; exact level_eq_nil hT _ (Nat.le_refl _))
  have hfun : (fun j => level t (0 + j)) = level t := by
    funext j; rw [Nat.zero_add]
  rw [hfun] at h
  change bfsOrder t (levelOrder t).length [t.root] = some (levelOrder t) at h
  rw [levelOrder_length hT] at h
  have := bfsOrder_mono t (fuel - t.nodes.length) _ _ _ h
  rwa [Nat.add_sub_cancel' hfuel] at this

theorem flatMap_range_succ (f : Nat → List Nat) (m : Nat) :
    (List.range (m + 1)).flatMap f = f 0 ++ (List.range m).flatMap (fun j => f (j + 1)) := by
  rw [List.range_succ_eq_map, List.flatMap_cons, List.flatMap_map]

/-- In the level order every node other than the root stands after its parent. -/
theorem parent_before_child {t : NewickTree_t} (hT : TreeInv t) (i : Nat)
    (hi : i < t.nodes.length) (hne : i ≠ t.root) :
    ∃ p pre post, parent t i = some p ∧ levelOrder t = pre ++ i :: post ∧ p ∈ pre := by
  have hmem := mem_level_iff hT
  obtain ⟨d, hd, hanc⟩ := hT.2.2.2.2.2 i hi
  cases d with
  | zero =>
    simp only [ancestor, Option.some.injEq] at hanc
    exact absurd hanc hne
  | succ d =>
    simp only [ancestor] at hanc
    cases hp : parent t i with
    | none => simp [hp] at hanc
    | some p =>
      simp only [hp] at hanc
      obtain ⟨q, hqlt, hq, -⟩ := hT.2.2.2.2.1 i hi hne
      rw [hp] at hq
      simp only [Option.some.injEq] at hq
      subst hq
      have hpl : p ∈ level t d := (hmem d p).2 ⟨hqlt, hanc⟩
      have hil : i ∈ level t (d + 1) := (hmem (d + 1) i).2 ⟨hi, by simp [ancestor, hp, hanc]⟩
      obtain ⟨a, b, hab⟩ := List.append_of_mem hil
      obtain ⟨m, hm⟩ : ∃ m, t.nodes.length = (d + 1) + (m + 1) := ⟨t.nodes.length - (d + 2), by omega⟩
      have hsplit : levelOrder t =
          (List.range (d + 1)).flatMap (level t) ++
            (level t (d + 1) ++ (List.range m).flatMap (fun j => level t (d + 1 + 1 + j))) := by
        simp only [levelOrder]
        rw [hm, List.range_add, List.flatMap_append, List.flatMap_map,
          flatMap_range_succ (fun a => level t (d + 1 + a)) m]
        have hfun : (fun j => level t (d + 1 + (j + 1))) = fun j => level t (d + 1 + 1 + j) := by
          funext j; congr 1; omega
        rw [hfun]
      refine ⟨p, (List.range (d + 1)).flatMap (level t) ++ a,
        b ++ (List.range m).flatMap (fun j => level t (d + 1 + 1 + j)), rfl, ?_, ?_⟩
      · rw [hsplit, hab]
        simp
      · apply List.mem_append_left
        rw [List.mem_flatMap]
        exact ⟨d, List.mem_range.2 (by omega), hpl⟩

/-! ## The walk -/

theorem processNode_error_dequeued {Seq Score G : Type} (w : World Seq Score G)
    (t : NewickTree_t) (outDir : String) (sampleSize seqLen : Int) (node : Nat)
    (nd : NewickNode_t) (st st1 : State Score G) (a : Abort)
    (h : processNode w t outDir sampleSize seqLen node nd st = .error (a, st1)) :
    st1.dequeued = st.dequeued := by
  simp only [processNode] at h
  split at h
  · simp only [Except.error.injEq, Prod.mk.injEq] at h
    rw [← h.2]
  · cases hr : nodeRows w.probModel t sampleSize seqLen node nd st.gen with
    | error e =>
      obtain ⟨a1, out⟩ := e
      simp only [hr, Except.error.injEq, Prod.mk.injEq] at h
      rw [← h.2]
    | ok res =>
      obtain ⟨g1, out⟩ := res
      simp [hr] at h

theorem visit_error_dequeued {Seq Score G : Type} (w : World Seq Score G)
    (t : NewickTree_t) (outDir : String) (sampleSize seqLen : Int) (node : Nat)
    (st st1 : State Score G) (a : Abort)
    (h : visit w t outDir sampleSize seqLen node st = .error (a, st1)) :
    st1.dequeued = st.dequeued ++ [node] := by
  simp only [visit] at h
  cases hnd : t.nodes[node]? with
  | none =>
    simp only [hnd, Except.error.injEq, Prod.mk.injEq] at h
    rw [← h.2]
  | some nd =>
    simp only [hnd] at h
    split at h
    · exact processNode_error_dequeued w t outDir sampleSize seqLen node nd _ _ a h
    · simp at h

theorem visit_ok_dequeued {Seq Score G : Type} (w : World Seq Score G)
    (t : NewickTree_t) (outDir : String) (sampleSize seqLen : Int) (node : Nat)
    (st st1 : State Score G)
    (h : visit w t outDir sampleSize seqLen node st = .ok st1) :
    st1.dequeued = st.dequeued ++ [node] := by
  simp only [visit] at h
  cases hnd : t.nodes[node]? with
  | none => simp [hnd] at h
  | some nd =>
    simp only [hnd] at h
    split at h
    · obtain ⟨out, -, -, hd⟩ := processNode_ok w t outDir sampleSize seqLen node nd _ _ h
      exact hd
    · simp only [Except.ok.injEq] at h
      rw [← h]

/-- The turns of `order` dequeue a front part of `order`, all of it when they
end with an empty worklist. -/
theorem runNodes_dequeued {Seq Score G : Type} (w : World Seq Score G) (t : NewickTree_t)
    (outDir : String) (sampleSize seqLen : Int) (order : List Nat) :
    ∀ st : State Score G, ∃ pre post, order = pre ++ post ∧
      (runNodes w t outDir sampleSize seqLen order st).2.dequeued = st.dequeued ++ pre ∧
      ((runNodes w t outDir sampleSize seqLen order st).1 = .finished → post = []) ∧
      (runNodes w t outDir sampleSize seqLen order st).1 ≠ .outOfFuel := by
  induction order with
  | nil =>
    intro st
    exact ⟨[], [], rfl, by simp [runNodes], fun _ => rfl, by simp [runNodes]⟩
  | cons node rest ih =>
    intro st
    simp only [runNodes]
    cases hv : visit w t outDir sampleSize seqLen node st with
    | error e =>
      obtain ⟨a, st1⟩ := e
      refine ⟨[node], rest, rfl, ?_, by simp, by simp⟩
      exact visit_error_dequeued w t outDir sampleSize seqLen node st st1 a hv
    | ok st1 =>
      obtain ⟨pre, post, hsplit, hdeq, hfin, hfuel⟩ := ih st1
      refine ⟨node :: pre, post, by simp [hsplit], ?_, hfin, hfuel⟩
      rw [hdeq, visit_ok_dequeued w t outDir sampleSize seqLen node st st1 hv]
      simp

/-- C10: on a tree that satisfies the tree invariant the worklist walk seeded
with the root ends within as many turns as there are nodes: it runs the turns
of the breadth-first level-order listing, one after the other.  The nodes
dequeued are a front part of that listing, and all of it when no turn stopped
the process; the listing holds every node exactly once, and every node other
than the root after its parent. -/
theorem walk_level_order {Seq Score G : Type} (w : World Seq Score G) (t : NewickTree_t)
    (outDir : String) (sampleSize seqLen : Int) (fuel : Nat) (st : State Score G)
    (hT : TreeInv t) (hfuel : t.nodes.length ≤ fuel) :
    bfsLoop w t outDir sampleSize seqLen fuel [t.root] st =
      runNodes w t outDir sampleSize seqLen (levelOrder t) st ∧
    (bfsLoop w t outDir sampleSize seqLen fuel [t.root] st).1 ≠ .outOfFuel ∧
    (∃ pre post, levelOrder t = pre ++ post ∧
      (bfsLoop w t outDir sampleSize seqLen fuel [t.root] st).2.dequeued = st.dequeued ++ pre ∧
      ((bfsLoop w t outDir sampleSize seqLen fuel [t.root] st).1 = .finished → post = [])) ∧
    (levelOrder t).Nodup ∧
    (∀ i, i ∈ levelOrder t ↔ i < t.nodes.length) ∧
    (∀ i < t.nodes.length, i ≠ t.root →
      ∃ p pre post, parent t i = some p ∧ levelOrder t = pre ++ i :: post ∧ p ∈ pre) := by
  rw [bfsLoop_eq_runNodes w t outDir sampleSize seqLen fuel _ _ st (bfsOrder_root hT fuel hfuel)]
  obtain ⟨pre, post, hsplit, hdeq, hfin, hne⟩ :=
    runNodes_dequeued w t outDir sampleSize seqLen (levelOrder t) st
  exact ⟨rfl, hne, ⟨pre, post, hsplit, hdeq, hfin⟩, levelOrder_nodup hT, mem_levelOrder hT,
    parent_before_child hT⟩

/-- Witness of C10: the walk over the scenario tree (ten nodes, ten turns)
dequeues the nodes 0 to 9 in level order. -/
theorem walk_level_order_witness :
    (bfsLoop (demoWorld scenarioTree) scenarioTree "out" 10 1460 10 [scenarioTree.root]
        (initState 0) =
        runNodes (demoWorld scenarioTree) scenarioTree "out" 10 1460 (levelOrder scenarioTree)
          (initState 0) ∧
      (bfsLoop (demoWorld scenarioTree) scenarioTree "out" 10 1460 10 [scenarioTree.root]
        (initState 0)).1 ≠ .outOfFuel ∧
      (∃ pre post, levelOrder scenarioTree = pre ++ post ∧
        (bfsLoop (demoWorld scenarioTree) scenarioTree "out" 10 1460 10 [scenarioTree.root]
          (initState 0)).2.dequeued = (initState 0 : State (Int × Int × Nat × Nat) Nat).dequeued ++ pre ∧
        ((bfsLoop (demoWorld scenarioTree) scenarioTree "out" 10 1460 10 [scenarioTree.root]
          (initState 0)).1 = .finished → post = [])) ∧
      (levelOrder scenarioTree).Nodup ∧
      (∀ i, i ∈ levelOrder scenarioTree ↔ i < scenarioTree.nodes.length) ∧
      (∀ i < scenarioTree.nodes.length, i ≠ scenarioTree.root →
        ∃ p pre post, parent scenarioTree i = some p ∧
          levelOrder scenarioTree = pre ++ i :: post ∧ p ∈ pre)) ∧
    (bfsLoop (demoWorld scenarioTree) scenarioTree "out" 10 1460 10 [scenarioTree.root]
        (initState 0)).2.dequeued = [0, 1, 2, 3, 4, 5, 6, 7, 8, 9] ∧
    (bfsLoop (demoWorld scenarioTree) scenarioTree "out" 10 1460 10 [scenarioTree.root]
        (initState 0)).1 = .finished :=
  ⟨walk_level_order (demoWorld scenarioTree) scenarioTree "out" 10 1460 10 (initState 0)
    (by decide) (by decide), by rfl, by rfl⟩

/-! ## The files of a run -/

theorem pathOf_eq (t : NewickTree_t) (outDir : String) (node : Nat) (nd : NewickNode_t)
    (hnd : t.nodes[node]? = some nd) : pathOf t outDir node = outFile outDir nd := by
  simp [pathOf, outFile, labelOf, hnd]

theorem labelOf_inj {t : NewickTree_t} (hL : DistinctLabels t) {i j : Nat}
    (hi : i < t.nodes.length) (hj : j < t.nodes.length) (h : labelOf t i = labelOf t j) :
    i = j := by
  have hi1 : i < (t.nodes.map (fun nd => nd.label)).length := by simpa using hi
  have hj1 : j < (t.nodes.map (fun nd => nd.label)).length := by simpa using hj
  refine (@List.Nodup.getElem_inj_iff _ _ hL i hi1 j hj1).1 ?_
  simp only [labelOf, List.getElem?_eq_getElem hi, List.getElem?_eq_getElem hj] at h
  simpa using h

theorem pathOf_inj {t : NewickTree_t} (hL : DistinctLabels t) (outDir : String) {i j : Nat}
    (hi : i < t.nodes.length) (hj : j < t.nodes.length)
    (h : pathOf t outDir i = pathOf t outDir j) : i = j := by
  apply labelOf_inj hL hi hj
  have h1 := congrArg String.data h
  simp only [pathOf, String.data_append, List.append_assoc] at h1
  have h2 := List.append_cancel_right (List.append_cancel_left (List.append_cancel_left h1))
  exact String.ext h2

theorem visit_root {Seq Score G : Type} (w : World Seq Score G) (t : NewickTree_t)
    (outDir : String) (sampleSize seqLen : Int) (st st1 : State Score G)
    (h : visit w t outDir sampleSize seqLen t.root st = .ok st1) : st1.fs = st.fs := by
  simp only [visit] at h
  cases hnd : t.nodes[t.root]? with
  | none => simp [hnd] at h
  | some nd =>
    simp only [hnd, ne_eq, not_true_eq_false, if_false, Except.ok.injEq] at h
    rw [← h]

theorem visit_ok_lt {Seq Score G : Type} (w : World Seq Score G) (t : NewickTree_t)
    (outDir : String) (sampleSize seqLen : Int) (node : Nat) (st st1 : State Score G)
    (h : visit w t outDir sampleSize seqLen node st = .ok st1) :
    ∃ nd, t.nodes[node]? = some nd := by
  simp only [visit] at h
  cases hnd : t.nodes[node]? with
  | none => simp [hnd] at h
  | some nd => exact ⟨nd, rfl⟩

/-- The paths in the output directory after the turns of `order` have all
succeeded, when no two of the files involved share a path: one new file per
node other than the root, in the order of the turns. -/
theorem runNodes_paths {Seq Score G : Type} (w : World Seq Score G) (t : NewickTree_t)
    (outDir : String) (sampleSize seqLen : Int) (hL : DistinctLabels t) (order : List Nat) :
    ∀ (st st1 : State Score G),
      runNodes w t outDir sampleSize seqLen order st = (.finished, st1) →
      order.Nodup → (∀ i ∈ order, i < t.nodes.length) →
      (∀ i ∈ order, pathOf t outDir i ∉ st.fs.paths) →
      st1.fs.paths =
        st.fs.paths ++ (order.filter (fun i => i ≠ t.root)).map (pathOf t outDir) := by
  induction order with
  | nil =>
    intro st st1 h _ _ _
    simp only [runNodes, Prod.mk.injEq, true_and] at h
    simp [h]
  | cons a rest ih =>
    intro st st1 h hnodup hlt hfresh
    simp only [runNodes] at h
    cases hv : visit w t outDir sampleSize seqLen a st with
    | error e => simp [hv] at h
    | ok st2 =>
      simp only [hv] at h
      have hnodup' := List.nodup_cons.1 hnodup
      have hlt' : ∀ i ∈ rest, i < t.nodes.length := fun i hi => hlt i (List.mem_cons_of_mem _ hi)
      by_cases ha : a = t.root
      · subst ha
        have hfs := visit_root w t outDir sampleSize seqLen st st2 hv
        have := ih st2 st1 h hnodup'.2 hlt'
          (by rw [hfs]; exact fun i hi => hfresh i (List.mem_cons_of_mem _ hi))
        rw [this, hfs]
        simp
      · obtain ⟨nd, hnd⟩ := visit_ok_lt w t outDir sampleSize seqLen a st st2 hv
        obtain ⟨out, -, hfs, -⟩ := visit_ok w t outDir sampleSize seqLen a nd st st2 hnd ha hv
        have hpaths : st2.fs.paths = st.fs.paths ++ [pathOf t outDir a] := by
          rw [hfs, FileSys.paths_write, pathOf_eq t outDir a nd hnd]
          congr 1
          rw [List.filter_eq_self]
          intro q hq
          have := hfresh a (List.mem_cons_self _ _)
          rw [pathOf_eq t outDir a nd hnd] at this
          simp only [ne_eq, decide_not, Bool.not_eq_true', decide_eq_false_iff_not]
          rintro rfl
          exact this hq
        have := ih st2 st1 h hnodup'.2 hlt' (by
          intro i hi
          rw [hpaths, List.mem_append, List.mem_singleton]
          rintro (h1 | h1)
          · exact hfresh i (List.mem_cons_of_mem _ hi) h1
          · have := pathOf_inj hL outDir (hlt' i hi) (hlt a (List.mem_cons_self _ _)) h1
            subst this
            exact hnodup'.1 hi)
        rw [this, hpaths]
        simp [ha]

theorem bfsLoop_mono {Seq Score G : Type} (w : World Seq Score G) (t : NewickTree_t)
    (outDir : String) (sampleSize seqLen : Int) (k : Nat) :
    ∀ (fuel : Nat) (q : List Nat) (st : State Score G),
      (bfsLoop w t outDir sampleSize seqLen fuel q st).1 ≠ .outOfFuel →
      bfsLoop w t outDir sampleSize seqLen (fuel + k) q st =
        bfsLoop w t outDir sampleSize seqLen fuel q st := by
  intro fuel
  induction fuel with
  | zero =>
    intro q st h
    cases q with
    | nil => rw [bfsLoop_nil, bfsLoop_nil]
    | cons a q => simp [bfsLoop] at h
  | succ fuel ih =>
    intro q st h
    cases q with
    | nil => rw [bfsLoop_nil, bfsLoop_nil]
    | cons a q =>
      rw [show fuel + 1 + k = (fuel + k) + 1 by omega]
      simp only [bfsLoop] at h ⊢
      cases hv : visit w t outDir sampleSize seqLen a st with
      | error e => rfl
      | ok st1 =>
        simp only [hv] at h
        exact ih _ _ h

/-- A run of `main` that returns success loaded a tree, had both directories,
and its walk ended with an empty worklist. -/
theorem main_success {Seq Score G : Type} (w : World Seq Score G) (inPar : inPar2_t)
    (fuel : Nat) (st st1 : State Score G) (h : main w inPar fuel st = (.success, st1)) :
    ∃ t outDir, loadRefTree w inPar = .ok t ∧ inPar.outDir = some outDir ∧
      bfsLoop w t outDir inPar.randSampleSize 1460 fuel [t.root] st = (.finished, st1) := by
  simp only [main] at h
  cases hl : loadRefTree w inPar with
  | error e =>
    simp only [hl, Prod.mk.injEq] at h
    have hne : e ≠ .success := by
      simp only [loadRefTree] at hl
      repeat' split at hl
      all_goals first | (simp at hl; done) | (simp only [Except.error.injEq] at hl; subst hl; simp)
    exact absurd h.1 hne
  | ok t =>
    simp only [hl] at h
    cases ho : inPar.outDir with
    | none => simp [ho] at h
    | some outDir =>
      simp only [ho] at h
      cases hd : inPar.mcDir with
      | none => simp [hd] at h
      | some mcDir =>
        simp only [hd] at h
        split at h
        · simp at h
        · refine ⟨t, outDir, rfl, rfl, ?_⟩
          generalize bfsLoop w t outDir inPar.randSampleSize 1460 fuel [t.root] st = r at h ⊢
          obtain ⟨e, st2⟩ := r
          cases e <;> simp_all

/-- C6 as amended: for a tree that satisfies the tree invariant and whose `k`
nodes carry pairwise distinct labels, a run of `main` that returns success
after starting on an empty output directory leaves exactly `k - 1` files in
it: the files of the nodes other than the root, each at the path made of the
output directory and the label of the node, and no file for the root. -/
theorem files_one_per_node {Seq Score G : Type} (w : World Seq Score G) (inPar : inPar2_t)
    (fuel : Nat) (g : G) (t : NewickTree_t) (outDir : String) (st1 : State Score G)
    (hT : TreeInv t) (hL : DistinctLabels t)
    (hload : loadRefTree w inPar = .ok t) (hout : inPar.outDir = some outDir)
    (hrun : main w inPar fuel (initState g) = (.success, st1)) :
    st1.fs.paths.length = t.nodes.length - 1 ∧ st1.fs.paths.Nodup ∧
    (∀ node nd, t.nodes[node]? = some nd →
      (outFile outDir nd ∈ st1.fs.paths ↔ node ≠ t.root)) ∧
    (∀ q ∈ st1.fs.paths, ∃ node nd, t.nodes[node]? = some nd ∧ node ≠ t.root ∧
      q = outFile outDir nd) := by
  obtain ⟨t1, outDir1, hl, ho, hloop⟩ := main_success w inPar fuel _ _ hrun
  rw [hload] at hl
  rw [hout] at ho
  simp only [Except.ok.injEq, Option.some.injEq] at hl ho
  subst hl ho
  have hloop2 := bfsLoop_mono w t outDir inPar.randSampleSize 1460 t.nodes.length fuel
    [t.root] (initState g) (by rw [hloop]; simp)
  rw [hloop, bfsLoop_eq_runNodes w t outDir inPar.randSampleSize 1460 _ _ _ _
    (bfsOrder_root hT (fuel + t.nodes.length) (by omega))] at hloop2
  have hp := runNodes_paths w t outDir inPar.randSampleSize 1460 hL (levelOrder t)
    (initState g) st1 hloop2 (levelOrder_nodup hT) (fun i hi => (mem_levelOrder hT i).1 hi)
    (by simp [initState, FileSys.paths])
  have hnil : (initState g : State Score G).fs.paths = [] := rfl
  rw [hnil, List.nil_append] at hp
  have hmemf : ∀ i, i ∈ (levelOrder t).filter (fun i => i ≠ t.root) ↔
      i < t.nodes.length ∧ i ≠ t.root := by
    intro i
    simp [List.mem_filter, mem_levelOrder hT]
  refine ⟨?_, ?_, ?_, ?_⟩
  · rw [hp, List.length_map,
      length_filter_ne_of_nodup (levelOrder_nodup hT) ((mem_levelOrder hT _).2 hT.1),
      levelOrder_length hT]
  · rw [hp]
    refine List.Nodup.map_on ?_ ((levelOrder_nodup hT).filter _)
    intro i hi j hj hij
    exact pathOf_inj hL outDir ((hmemf i).1 hi).1 ((hmemf j).1 hj).1 hij
  · intro node nd hnd
    have hlt := lt_of_getElem?_eq_some hnd
    rw [hp, List.mem_map]
    constructor
    · rintro ⟨i, hi, hpath⟩
      rw [← pathOf_eq t outDir node nd hnd] at hpath
      have := pathOf_inj hL outDir ((hmemf i).1 hi).1 hlt hpath
      subst this
      exact ((hmemf i).1 hi).2
    · intro hne
      exact ⟨node, (hmemf node).2 ⟨hlt, hne⟩, pathOf_eq t outDir node nd hnd⟩
  · intro q hq
    rw [hp, List.mem_map] at hq
    obtain ⟨i, hi, rfl⟩ := hq
    obtain ⟨hlt, hne⟩ := (hmemf i).1 hi
    exact ⟨i, t.nodes[i], List.getElem?_eq_getElem hlt, hne,
      pathOf_eq t outDir i _ (List.getElem?_eq_getElem hlt)⟩

/-- Witness of C6 as amended: the run over the scenario tree, ten nodes with
distinct labels, leaves nine files. -/
theorem files_one_per_node_witness :
    ∃ st1, main (demoWorld scenarioTree) scenarioPar 10 (initState 0) = (.success, st1) ∧
      (st1.fs.paths.length = scenarioTree.nodes.length - 1 ∧ st1.fs.paths.Nodup ∧
        (∀ node nd, scenarioTree.nodes[node]? = some nd →
          (outFile "out" nd ∈ st1.fs.paths ↔ node ≠ scenarioTree.root)) ∧
        (∀ q ∈ st1.fs.paths, ∃ node nd, scenarioTree.nodes[node]? = some nd ∧
          node ≠ scenarioTree.root ∧ q = outFile "out" nd)) ∧
      st1.fs.paths = ["out/A.txt", "out/B.txt", "out/C.txt", "out/a1.txt", "out/a2.txt",
        "out/b1.txt", "out/b2.txt", "out/c1.txt", "out/c2.txt"] :=
  ⟨_, rfl, files_one_per_node (demoWorld scenarioTree) scenarioPar 10 0 scenarioTree "out" _
    (by decide) (by decide) rfl rfl rfl, by rfl⟩

/-- C6 fails as stated: the tree whose root has the children A, A and B has four
nodes and satisfies the tree invariant, and the run over it returns success,
yet it leaves two files, not three: the second A reopens the file of the
first. -/
theorem files_fewer_with_shared_label :
    TreeInv twinTree ∧
    ∃ st1, main (demoWorld twinTree) scenarioPar 10 (initState 0) = (.success, st1) ∧
      st1.fs.paths = ["out/A.txt", "out/B.txt"] ∧
      st1.fs.paths.length ≠ twinTree.nodes.length - 1 :=
  ⟨by decide, _, rfl, by rfl, by decide⟩

/-! ## Complete and interrupted files -/

/-- With at least one leaf the ceiling is defined; `nSpp` times it is the
sample size plus the remainder needed to reach the next multiple of `nSpp`. -/
theorem nSeqsPerSpp_bounds (sampleSize : Int) (nSpp : Nat) (hSpp : 1 ≤ nSpp) :
    ∃ nSeqs, nSeqsPerSpp sampleSize nSpp = some nSeqs ∧
      sampleSize ≤ nSpp * nSeqs ∧ nSpp * nSeqs < sampleSize + nSpp ∧
      (sampleSize < nSpp * nSeqs ↔ ¬ (nSpp : Int) ∣ sampleSize) := by
  have hK : (0 : Int) < (nSpp : Int) := by exact_mod_cast hSpp
  have h1 := Int.emod_add_ediv (-sampleSize) (nSpp : Int)
  have h2 := Int.emod_nonneg (-sampleSize) (ne_of_gt hK)
  have h3 := Int.emod_lt_of_pos (-sampleSize) hK
  have hmul : (nSpp : Int) * -(-sampleSize / (nSpp : Int)) =
      sampleSize + (-sampleSize) % (nSpp : Int) := by
    rw [mul_neg]
    linarith
  have hdvd : (nSpp : Int) ∣ sampleSize ↔ (-sampleSize) % (nSpp : Int) = 0 := by
    rw [← Int.dvd_iff_emod_eq_zero, dvd_neg]
  refine ⟨-(-sampleSize / (nSpp : Int)), ?_, ?_, ?_, ?_⟩
  · simp [nSeqsPerSpp, show nSpp ≠ 0 by omega]
  · rw [hmul]; omega
  · rw [hmul]; omega
  · rw [hmul, hdvd]; omega

theorem sum_map_const {α : Type} (l : List α) (f : α → Int) (c : Int)
    (h : ∀ x ∈ l, f x = c) : (l.map f).sum = l.length * c := by
  induction l with
  | nil => simp
  | cons a l ih =>
    rw [List.map_cons, List.sum_cons, h a (List.mem_cons_self _ _),
      ih (fun x hx => h x (List.mem_cons_of_mem _ hx)), List.length_cons]
    push_cast
    ring

/-- C11: for a sample size of at least one and a node other than the root with
`nSpp >= 1` leaf descendants, the number of own-clade scores in the file of
the node is `nSpp * ceil(sampleSize / nSpp)`; it is at least the sample size,
less than the sample size plus `nSpp`, and larger than the sample size exactly
when `nSpp` does not divide the sample size. -/
theorem own_scores_total {Seq Score G : Type} (w : World Seq Score G) (t : NewickTree_t)
    (outDir : String) (sampleSize seqLen : Int) (node : Nat) (nd : NewickNode_t)
    (st st1 : State Score G) (hS : 1 ≤ sampleSize) (hSpp : 1 ≤ (leafLabels t node).length)
    (hnd : t.nodes[node]? = some nd) (hroot : node ≠ t.root)
    (h : visit w t outDir sampleSize seqLen node st = .ok st1) :
    ∃ rows total, st1.fs.read (outFile outDir nd) = some rows ∧
      ((rows.take (leafLabels t node).length).map (fun row => (row.2.length : Int))).sum =
        total ∧
      nSeqsPerSpp sampleSize (leafLabels t node).length =
        some ⌈(sampleSize : ℚ) / ((leafLabels t node).length : ℚ)⌉ ∧
      total = (leafLabels t node).length *
        ⌈(sampleSize : ℚ) / ((leafLabels t node).length : ℚ)⌉ ∧
      sampleSize ≤ total ∧ total < sampleSize + (leafLabels t node).length ∧
      (sampleSize < total ↔ ¬ ((leafLabels t node).length : Int) ∣ sampleSize) := by
  obtain ⟨nSeqs, own, sib, hn, hread, hlen, hown, -⟩ :=
    visit_file w t outDir sampleSize seqLen node nd st st1 hnd hroot h
  obtain ⟨n1, hn1, hle, hlt, hiff⟩ := nSeqsPerSpp_bounds sampleSize _ hSpp
  rw [hn] at hn1
  simp only [Option.some.injEq] at hn1
  subst hn1
  have hceil := nSeqsPerSpp_eq_ceil sampleSize (leafLabels t node).length (by omega)
  rw [hn] at hceil
  simp only [Option.some.injEq] at hceil
  have hpos : 0 ≤ nSeqs := by
    by_contra hneg
    have hk : (1 : Int) ≤ ((leafLabels t node).length : Int) := by exact_mod_cast hSpp
    nlinarith
  have hsum : (((own ++ sib).take (leafLabels t node).length).map
      (fun row => (row.2.length : Int))).sum = (leafLabels t node).length * nSeqs := by
    rw [← hlen, List.take_left, sum_map_const own _ nSeqs]
    intro row hrow
    obtain ⟨leaf, -, sppnode, -, hr⟩ := forall₂_mem_right hown row hrow
    rw [hr.length_eq, Int.toNat_of_nonneg hpos]
  refine ⟨own ++ sib, (leafLabels t node).length * nSeqs, hread, hsum, ?_, ?_, hle, hlt, hiff⟩
  · rw [hn, hceil]
  · rw [hceil]

/-- Witness of C11, the boundary case of the specification: sample size 10 and a
node with three leaf descendants give 4 scores per leaf and 12 own-clade
scores. -/
theorem own_scores_total_witness :
    ∃ st1, visit (demoWorld tripleTree) tripleTree "out" 10 1460 1 (initState 0) = .ok st1 ∧
      (∃ rows total, st1.fs.read (outFile "out" (mkNode "A" 1 [2, 3, 4] (some 0))) = some rows ∧
        ((rows.take (leafLabels tripleTree 1).length).map
          (fun row => (row.2.length : Int))).sum = total ∧
        nSeqsPerSpp 10 (leafLabels tripleTree 1).length =
          some ⌈((10 : Int) : ℚ) / ((leafLabels tripleTree 1).length : ℚ)⌉ ∧
        total = (leafLabels tripleTree 1).length *
          ⌈((10 : Int) : ℚ) / ((leafLabels tripleTree 1).length : ℚ)⌉ ∧
        10 ≤ total ∧ total < 10 + (leafLabels tripleTree 1).length ∧
        ((10 : Int) < total ↔ ¬ ((leafLabels tripleTree 1).length : Int) ∣ 10)) ∧
      nSeqsPerSpp 10 3 = some 4 ∧
      (st1.fs.read "out/A.txt").map (List.map (fun row => (row.1, row.2.length))) =
        some [("A", 4), ("A", 4), ("A", 4)] :=
  ⟨_, rfl, own_scores_total (demoWorld tripleTree) tripleTree "out" 10 1460 1 _
    (initState 0) _ (by decide) (by decide) rfl (by decide) rfl, by decide, by rfl⟩

/-! ## Safety of the walk -/

theorem children_eq (t : NewickTree_t) (node : Nat) (nd : NewickNode_t)
    (hnd : t.nodes[node]? = some nd) : children t node = nd.children_m := by
  simp [children, hnd]

theorem parent_eq (t : NewickTree_t) (node : Nat) (nd : NewickNode_t)
    (hnd : t.nodes[node]? = some nd) : parent t node = nd.parent_m := by
  simp [parent, hnd]

theorem TreeInv.depth_lt {t : NewickTree_t} (hT : TreeInv t) {i d : Nat}
    (hi : i < t.nodes.length) (hd : ancestor t d i = some t.root) : d < t.nodes.length := by
  obtain ⟨e, he, hanc⟩ := hT.2.2.2.2.2 i hi
  rw [ancestor_root_unique t hT.2.1 d e i hd hanc]
  exact he

/-- The leaf descendants of a node of a tree are nodes of the tree. -/
theorem leafLabelsAux_lt {t : NewickTree_t} (hT : TreeInv t) :
    ∀ (fuel i : Nat), i < t.nodes.length → ∀ x ∈ leafLabelsAux t fuel i, x < t.nodes.length := by
  intro fuel
  induction fuel with
  | zero => intro i _ x hx; simp [leafLabelsAux] at hx
  | succ fuel ih =>
    intro i hi x hx
    simp only [leafLabelsAux, List.getElem?_eq_getElem hi] at hx
    split at hx
    · simp only [List.mem_singleton] at hx
      rw [hx]; exact hi
    · rw [List.mem_flatMap] at hx
      obtain ⟨c, hc, hxc⟩ := hx
      have hci : c ∈ children t i := by
        rw [children_eq t i _ (List.getElem?_eq_getElem hi)]; exact hc
      exact ih c (hT.2.2.1 i hi c hci).1 x hxc

/-- With fuel for the levels below it, a node of a tree has a leaf descendant. -/
theorem leafLabelsAux_ne_nil {t : NewickTree_t} (hT : TreeInv t) :
    ∀ (fuel i d : Nat), i < t.nodes.length → ancestor t d i = some t.root →
      t.nodes.length ≤ fuel + d → leafLabelsAux t fuel i ≠ [] := by
  intro fuel
  induction fuel with
  | zero =>
    intro i d hi hd hfuel
    have := hT.depth_lt hi hd
    omega
  | succ fuel ih =>
    intro i d hi hd hfuel
    simp only [leafLabelsAux, List.getElem?_eq_getElem hi]
    split
    · simp
    · rename_i hne
      cases hch : (t.nodes[i]).children_m with
      | nil => exact absurd hch hne
      | cons c cs =>
        have hci : c ∈ children t i := by
          rw [children_eq t i _ (List.getElem?_eq_getElem hi), hch]
          exact List.mem_cons_self _ _
        obtain ⟨hc, hp⟩ := hT.2.2.1 i hi c hci
        have hanc : ancestor t (d + 1) c = some t.root := by
          simp [ancestor, hp, hd]
        have := ih c (d + 1) hc hanc (by omega)
        rw [List.flatMap_cons]
        intro hnil
        exact this (List.append_eq_nil.1 hnil).1

theorem leafLabels_length_pos {t : NewickTree_t} (hT : TreeInv t) {i : Nat}
    (hi : i < t.nodes.length) : 1 ≤ (leafLabels t i).length := by
  obtain ⟨d, -, hd⟩ := hT.2.2.2.2.2 i hi
  have := leafLabelsAux_ne_nil hT t.nodes.length i d hi hd (by omega)
  exact List.length_pos.2 this

theorem identifySiblings_snd_of_not_mem (node : Nat) (cs : List Nat) :
    ∀ (i : Nat) (acc : List Nat × Int), node ∉ cs →
      (identifySiblings node cs i acc).2 = acc.2 := by
  induction cs with
  | nil => intro i acc _; simp [identifySiblings]
  | cons c cs ih =>
    intro i acc hmem
    obtain ⟨sibs, idx⟩ := acc
    have hc : c ≠ node := fun h => hmem (h ▸ List.mem_cons_self _ _)
    have hcs : node ∉ cs := fun h => hmem (List.mem_cons_of_mem _ h)
    simp [identifySiblings, hc, ih _ _ hcs]

/-- When the node is among the children searched, `nodeIdx` ends as one of the
positions searched, hence not negative. -/
theorem identifySiblings_snd_of_mem (node : Nat) (cs : List Nat) :
    ∀ (i : Nat) (acc : List Nat × Int), node ∈ cs →
      0 ≤ (identifySiblings node cs i acc).2 := by
  induction cs with
  | nil => intro i acc h; simp at h
  | cons c cs ih =>
    intro i acc hmem
    obtain ⟨sibs, idx⟩ := acc
    by_cases hc : c = node
    · simp only [identifySiblings, hc, ne_eq, not_true_eq_false, if_false]
      by_cases hcs : node ∈ cs
      · exact ih _ _ hcs
      · rw [identifySiblings_snd_of_not_mem node cs _ _ hcs]
        exact Int.ofNat_nonneg i
    · have hcs : node ∈ cs := by
        rcases List.mem_cons.1 hmem with h | h
        · exact absurd h.symm hc
        · exact h
      simp only [identifySiblings, ne_eq, hc, not_false_eq_true, if_true]
      exact ih _ _ hcs

theorem getElem?_ne_none_of_lt {α : Type} {l : List α} {i : Nat} (h : i < l.length) :
    ∃ a, l[i]? = some a :=
  ⟨l[i], List.getElem?_eq_getElem h⟩

theorem ownLoop_error {Seq Score G : Type} (pm : MarkovChains2_t Seq Score G)
    (t : NewickTree_t) (nd : NewickNode_t) (nSeqs seqLen : Int) (leaves : List Nat) :
    ∀ (g : G) (out out1 : List (Row Score)) (a : Abort),
      (∀ x ∈ leaves, x < t.nodes.length) →
      ownLoop pm t nd nSeqs seqLen leaves g out = .error (a, out1) → a = .modelFailed := by
  induction leaves with
  | nil => intro g out out1 a _ h; simp [ownLoop] at h
  | cons leaf rest ih =>
    intro g out out1 a hlt h
    obtain ⟨sppnode, hn⟩ := getElem?_ne_none_of_lt (hlt leaf (List.mem_cons_self _ _))
    simp only [ownLoop, hn] at h
    cases hs : pm.sample g sppnode.model_idx nSeqs seqLen with
    | none =>
      simp only [hs, Except.error.injEq, Prod.mk.injEq] at h
      exact h.1.symm
    | some res =>
      obtain ⟨seqTbl, g1⟩ := res
      simp only [hs] at h
      split at h
      · simp only [Except.error.injEq, Prod.mk.injEq] at h
        exact h.1.symm
      · exact ih _ _ _ _ (fun x hx => hlt x (List.mem_cons_of_mem _ hx)) h

theorem sibLoop_error {Seq Score G : Type} (pm : MarkovChains2_t Seq Score G)
    (t : NewickTree_t) (nd : NewickNode_t) (sampleSize seqLen : Int) (sibs : List Nat) :
    ∀ (g : G) (out out1 : List (Row Score)) (a : Abort),
      (∀ x ∈ sibs, x < t.nodes.length) →
      sibLoop pm t nd sampleSize seqLen sibs g out = .error (a, out1) → a = .modelFailed := by
  induction sibs with
  | nil => intro g out out1 a _ h; simp [sibLoop] at h
  | cons sib rest ih =>
    intro g out out1 a hlt h
    obtain ⟨sibnode, hn⟩ := getElem?_ne_none_of_lt (hlt sib (List.mem_cons_self _ _))
    simp only [sibLoop, hn] at h
    cases hs : pm.sample g sibnode.model_idx sampleSize seqLen with
    | none =>
      simp only [hs, Except.error.injEq, Prod.mk.injEq] at h
      exact h.1.symm
    | some res =>
      obtain ⟨seqTbl, g1⟩ := res
      simp only [hs] at h
      split at h
      · simp only [Except.error.injEq, Prod.mk.injEq] at h
        exact h.1.symm
      · exact ih _ _ _ _ (fun x hx => hlt x (List.mem_cons_of_mem _ hx)) h

/-- What the tree invariant gives for a node other than the root: a parent in
the arena that lists the node among its children. -/
theorem TreeInv.parent_node {t : NewickTree_t} (hT : TreeInv t) {node : Nat}
    {nd : NewickNode_t} (hnd : t.nodes[node]? = some nd) (hroot : node ≠ t.root) :
    ∃ p pnode, nd.parent_m = some p ∧ t.nodes[p]? = some pnode ∧
      node ∈ pnode.children_m ∧ ∀ c ∈ pnode.children_m, c < t.nodes.length := by
  obtain ⟨p, hp, hpar, hmem, -⟩ := hT.parent_of_ne_root (lt_of_getElem?_eq_some hnd) hroot
  obtain ⟨pnode, hpn⟩ := getElem?_ne_none_of_lt hp
  rw [parent_eq t node nd hnd] at hpar
  rw [children_eq t p pnode hpn] at hmem
  refine ⟨p, pnode, hpar, hpn, hmem, ?_⟩
  intro c hc
  rw [← children_eq t p pnode hpn] at hc
  exact (hT.2.2.1 p hp c hc).1

/-- On a tree the lines of a node other than the root are cut short only by a
failure of the collaborator. -/
theorem nodeRows_error {Seq Score G : Type} (pm : MarkovChains2_t Seq Score G)
    (t : NewickTree_t) (sampleSize seqLen : Int) (node : Nat) (nd : NewickNode_t)
    (g : G) (a : Abort) (out : List (Row Score)) (hT : TreeInv t)
    (hnd : t.nodes[node]? = some nd) (hroot : node ≠ t.root)
    (h : nodeRows pm t sampleSize seqLen node nd g = .error (a, out)) :
    a = .modelFailed := by
  have hlt := lt_of_getElem?_eq_some hnd
  obtain ⟨nSeqs, hn, -⟩ := nSeqsPerSpp_bounds sampleSize _ (leafLabels_length_pos hT hlt)
  obtain ⟨p, pnode, hp, hpn, -, hch⟩ := hT.parent_node hnd hroot
  simp only [nodeRows, hn] at h
  cases ho : ownLoop pm t nd nSeqs seqLen (leafLabels t node) g [] with
  | error e =>
    obtain ⟨a1, out1⟩ := e
    simp only [ho, Except.error.injEq, Prod.mk.injEq] at h
    rw [← h.1]
    exact ownLoop_error pm t nd nSeqs seqLen _ _ _ _ _ (leafLabelsAux_lt hT _ node hlt) ho
  | ok res =>
    obtain ⟨g1, out1⟩ := res
    simp only [ho, hp, hpn] at h
    refine sibLoop_error pm t nd sampleSize seqLen _ _ _ _ _ ?_ h
    intro x hx
    rw [siblingsOf_eq] at hx
    exact hch x (List.mem_filter.1 hx).1

theorem visit_error_safe {Seq Score G : Type} (w : World Seq Score G) (t : NewickTree_t)
    (outDir : String) (sampleSize seqLen : Int) (node : Nat) (st st1 : State Score G)
    (a : Abort) (hT : TreeInv t) (hlt : node < t.nodes.length)
    (h : visit w t outDir sampleSize seqLen node st = .error (a, st1)) :
    a ≠ .undefinedBehaviour := by
  obtain ⟨nd, hnd⟩ := getElem?_ne_none_of_lt hlt
  simp only [visit, hnd] at h
  split at h
  · rename_i hroot
    simp only [processNode] at h
    split at h
    · simp only [Except.error.injEq, Prod.mk.injEq] at h
      rw [← h.1]; simp
    · cases hr : nodeRows w.probModel t sampleSize seqLen node nd
          ({ st with dequeued := st.dequeued ++ [node] } : State Score G).gen with
      | ok res =>
        obtain ⟨g1, out⟩ := res
        simp [hr] at h
      | error res =>
        obtain ⟨a1, out⟩ := res
        simp only [hr, Except.error.injEq, Prod.mk.injEq] at h
        rw [← h.1, nodeRows_error w.probModel t sampleSize seqLen node nd _ a1 out hT hnd hroot hr]
        simp
  · simp at h

/-- On a tree, a worklist of nodes of the tree is never left by undefined
behaviour, and only nodes of the tree are dequeued. -/
theorem bfsLoop_safe {Seq Score G : Type} (w : World Seq Score G) (t : NewickTree_t)
    (outDir : String) (sampleSize seqLen : Int) (hT : TreeInv t) :
    ∀ (fuel : Nat) (q : List Nat) (st : State Score G),
      (∀ x ∈ q, x < t.nodes.length) → (∀ x ∈ st.dequeued, x < t.nodes.length) →
      (bfsLoop w t outDir sampleSize seqLen fuel q st).1 ≠ .aborted .undefinedBehaviour ∧
      ∀ x ∈ (bfsLoop w t outDir sampleSize seqLen fuel q st).2.dequeued,
        x < t.nodes.length := by
  intro fuel
  induction fuel with
  | zero =>
    intro q st _ hst
    cases q with
    | nil => rw [bfsLoop_nil]; exact ⟨by simp, hst⟩
    | cons a q => exact ⟨by simp [bfsLoop], hst⟩
  | succ fuel ih =>
    intro q st hq hst
    cases q with
    | nil => rw [bfsLoop_nil]; exact ⟨by simp, hst⟩
    | cons node q =>
      have hnode := hq node (List.mem_cons_self _ _)
      have hdeq : ∀ x ∈ st.dequeued ++ [node], x < t.nodes.length := by
        intro x hx
        rcases List.mem_append.1 hx with h1 | h1
        · exact hst x h1
        · rw [List.mem_singleton.1 h1]; exact hnode
      simp only [bfsLoop]
      cases hv : visit w t outDir sampleSize seqLen node st with
      | error res =>
        obtain ⟨a, st1⟩ := res
        refine ⟨?_, ?_⟩
        · have := visit_error_safe w t outDir sampleSize seqLen node st st1 a hT hnode hv
          simpa using this
        · rw [visit_error_dequeued w t outDir sampleSize seqLen node st st1 a hv]
          exact hdeq
      | ok st1 =>
        refine ih _ st1 ?_ ?_
        · intro x hx
          rcases List.mem_append.1 hx with h1 | h1
          · exact hq x (List.mem_cons_of_mem _ h1)
          · exact (hT.2.2.1 node hnode x h1).1
        · rw [visit_ok_dequeued w t outDir sampleSize seqLen node st st1 hv]
          exact hdeq

/-- C12: on a tree that satisfies the tree invariant the walk seeded with the
root never ends in undefined behaviour, and every node it dequeues other than
the root has a parent in the arena whose children contain the node, so that the
search sets `nodeIdx` to a value other than `-1`, and has at least one leaf
descendant, so that `ceil( 1.0 * sampleSize / nSpp )` is defined. -/
theorem walk_safe {Seq Score G : Type} (w : World Seq Score G) (t : NewickTree_t)
    (outDir : String) (sampleSize seqLen : Int) (fuel : Nat) (g : G) (hT : TreeInv t) :
    (bfsLoop w t outDir sampleSize seqLen fuel [t.root] (initState g)).1 ≠
      .aborted .undefinedBehaviour ∧
    ∀ node ∈ (bfsLoop w t outDir sampleSize seqLen fuel [t.root] (initState g)).2.dequeued,
      node ≠ t.root →
      ∃ nd p pnode, t.nodes[node]? = some nd ∧ nd.parent_m = some p ∧
        t.nodes[p]? = some pnode ∧ node ∈ pnode.children_m ∧
        (identifySiblings node pnode.children_m 0 ([], -1)).2 ≠ -1 ∧
        1 ≤ (leafLabels t node).length ∧
        nSeqsPerSpp sampleSize (leafLabels t node).length ≠ none := by
  obtain ⟨hub, hdeq⟩ := bfsLoop_safe w t outDir sampleSize seqLen hT fuel [t.root]
    (initState g) (by intro x hx; rw [List.mem_singleton.1 hx]; exact hT.1)
    (by intro x hx; simp [initState] at hx)
  refine ⟨hub, ?_⟩
  intro node hnode hroot
  have hlt := hdeq node hnode
  obtain ⟨nd, hnd⟩ := getElem?_ne_none_of_lt hlt
  obtain ⟨p, pnode, hp, hpn, hmem, -⟩ := hT.parent_node hnd hroot
  have hpos := leafLabels_length_pos hT hlt
  obtain ⟨nSeqs, hn, -⟩ := nSeqsPerSpp_bounds sampleSize _ hpos
  refine ⟨nd, p, pnode, hnd, hp, hpn, hmem, ?_, hpos, by simp [hn]⟩
  have := identifySiblings_snd_of_mem node pnode.children_m 0 ([], -1) hmem
  omega

/-- Witness of C12: the walk over the scenario tree. -/
theorem walk_safe_witness :
    (bfsLoop (demoWorld scenarioTree) scenarioTree "out" 10 1460 10 [scenarioTree.root]
        (initState 0)).1 ≠ .aborted .undefinedBehaviour ∧
    ∀ node ∈ (bfsLoop (demoWorld scenarioTree) scenarioTree "out" 10 1460 10
        [scenarioTree.root] (initState 0)).2.dequeued,
      node ≠ scenarioTree.root →
      ∃ nd p pnode, scenarioTree.nodes[node]? = some nd ∧ nd.parent_m = some p ∧
        scenarioTree.nodes[p]? = some pnode ∧ node ∈ pnode.children_m ∧
        (identifySiblings node pnode.children_m 0 ([], -1)).2 ≠ -1 ∧
        1 ≤ (leafLabels scenarioTree node).length ∧
        nSeqsPerSpp 10 (leafLabels scenarioTree node).length ≠ none :=
  walk_safe (demoWorld scenarioTree) scenarioTree "out" 10 1460 10 0 (by decide)

/-! ## The pseudo-count option -/

/-- The case `'p'` of the switch refines the table of the claim. -/
theorem parseOpt_pseudoCount (atoi : String → Int)
    (parseCommaList : String → List Int → List Int) (p : inPar2_t) (errflg : Nat)
    (optarg : String) :
    parseOpt atoi parseCommaList p errflg (.opt 'p' optarg) =
      match pseudoCountOf (atoi optarg) with
      | some scheme => .ok ({ p with pseudoCountType := scheme }, errflg)
      | none => .error .undefinedPseudoCount := by
  have hb : ('p' : Char) ≠ 'b' := by decide
  have hs : ('p' : Char) ≠ 's' := by decide
  have hr : ('p' : Char) ≠ 'r' := by decide
  have he : ('p' : Char) ≠ 'e' := by decide
  simp only [parseOpt, hb, hs, hr, he, if_false, if_true, pseudoCountOf]
  split_ifs <;> rfl

/-- Every other option leaves the pseudo-count scheme as it is. -/
theorem parseOpt_keeps (atoi : String → Int)
    (parseCommaList : String → List Int → List Int) (p : inPar2_t) (errflg : Nat)
    (o : Getopt) (ho : o.isPseudoCount = false) :
    KeepsPseudoCount p (parseOpt atoi parseCommaList p errflg o) := by
  cases o with
  | longPrintCounts => exact rfl
  | longHelp => exact rfl
  | opt c optarg =>
    have hc : c ≠ 'p' := by simpa [Getopt.isPseudoCount] using ho
    dsimp only [parseOpt]
    by_cases h1 : c = 'b'
    · rw [if_pos h1]; exact rfl
    rw [if_neg h1]
    by_cases h2 : c = 's'
    · rw [if_pos h2]; exact rfl
    rw [if_neg h2]
    by_cases h3 : c = 'r'
    · rw [if_pos h3]; exact rfl
    rw [if_neg h3]
    by_cases h4 : c = 'e'
    · rw [if_pos h4]; exact rfl
    rw [if_neg h4, if_neg hc]
    by_cases h5 : c = 'd'
    · rw [if_pos h5]; exact rfl
    rw [if_neg h5]
    by_cases h6 : c = 'f'
    · rw [if_pos h6]; exact rfl
    rw [if_neg h6]
    by_cases h7 : c = 'o'
    · rw [if_pos h7]; exact rfl
    rw [if_neg h7]
    by_cases h8 : c = 't'
    · rw [if_pos h8]; exact rfl
    rw [if_neg h8]
    by_cases h9 : c = 'i'
    · rw [if_pos h9]; exact rfl
    rw [if_neg h9]
    by_cases h10 : c = 'k'
    · rw [if_pos h10]; exact rfl
    rw [if_neg h10]
    by_cases h11 : c = 'v'
    · rw [if_pos h11]; exact rfl
    rw [if_neg h11]
    by_cases h12 : c = 'h'
    · rw [if_pos h12]; exact True.intro
    rw [if_neg h12]
    exact rfl

theorem parseOpt_other (atoi : String → Int)
    (parseCommaList : String → List Int → List Int) (p p1 : inPar2_t) (errflg errflg1 : Nat)
    (o : Getopt) (ho : o.isPseudoCount = false)
    (h : parseOpt atoi parseCommaList p errflg o = .ok (p1, errflg1)) :
    p1.pseudoCountType = p.pseudoCountType := by
  have hk := parseOpt_keeps atoi parseCommaList p errflg o ho
  rw [h] at hk
  exact hk

theorem parseLoop_append (atoi : String → Int)
    (parseCommaList : String → List Int → List Int) (xs ys : List Getopt) :
    ∀ (p : inPar2_t) (errflg : Nat),
      parseLoop atoi parseCommaList (xs ++ ys) p errflg =
        match parseLoop atoi parseCommaList xs p errflg with
        | .error e => .error e
        | .ok (p1, errflg1) => parseLoop atoi parseCommaList ys p1 errflg1 := by
  induction xs with
  | nil => intro p errflg; rfl
  | cons o os ih =>
    intro p errflg
    simp only [List.cons_append, parseLoop]
    cases ho : parseOpt atoi parseCommaList p errflg o with
    | error e => rfl
    | ok res =>
      obtain ⟨p1, errflg1⟩ := res
      exact ih p1 errflg1

theorem parseLoop_other (atoi : String → Int)
    (parseCommaList : String → List Int → List Int) (opts : List Getopt) :
    ∀ (p p1 : inPar2_t) (errflg errflg1 : Nat),
      (∀ o ∈ opts, o.isPseudoCount = false) →
      parseLoop atoi parseCommaList opts p errflg = .ok (p1, errflg1) →
      p1.pseudoCountType = p.pseudoCountType := by
  induction opts with
  | nil =>
    intro p p1 errflg errflg1 _ h
    simp only [parseLoop, Except.ok.injEq, Prod.mk.injEq] at h
    rw [← h.1]
  | cons o os ih =>
    intro p p1 errflg errflg1 hno h
    simp only [parseLoop] at h
    cases ho : parseOpt atoi parseCommaList p errflg o with
    | error e => simp [ho] at h
    | ok res =>
      obtain ⟨p2, errflg2⟩ := res
      simp only [ho] at h
      rw [ih p2 p1 errflg2 errflg1 (fun o1 ho1 => hno o1 (List.mem_cons_of_mem _ ho1)) h]
      exact parseOpt_other atoi parseCommaList p p2 errflg errflg2 o
        (hno o (List.mem_cons_self _ _)) ho

theorem parseArgs_ok (atoi : String → Int)
    (parseCommaList : String → List Int → List Int) (opts : List Getopt)
    (rest : List String) (p p1 : inPar2_t)
    (h : parseArgs atoi parseCommaList opts rest p = .ok p1) :
    ∃ p2, parseLoop atoi parseCommaList opts p 0 = .ok (p2, 0) ∧
      p1.pseudoCountType = p2.pseudoCountType := by
  simp only [parseArgs] at h
  cases hl : parseLoop atoi parseCommaList opts p 0 with
  | error e => simp [hl] at h
  | ok res =>
    obtain ⟨p2, errflg⟩ := res
    simp only [hl] at h
    split_ifs at h with herr
    · simp only [Except.ok.injEq] at h
      have h0 : errflg = 0 := by simpa using herr
      subst h0
      exact ⟨p2, rfl, by rw [← h]⟩

/-- The scheme after a run of `parseArgs` is the one of the last `-p` option, a
`-p` option with a value outside the table ends the run with an error, and
without a `-p` option the scheme stays what it was. -/
theorem pseudoCount_of_last_option (atoi : String → Int)
    (parseCommaList : String → List Int → List Int) (before after : List Getopt)
    (rest : List String) (p : inPar2_t) (optarg : String) :
    (∀ p1, parseArgs atoi parseCommaList (before ++ .opt 'p' optarg :: after) rest p = .ok p1 →
      (∀ o ∈ after, o.isPseudoCount = false) →
      pseudoCountOf (atoi optarg) = some p1.pseudoCountType) ∧
    (pseudoCountOf (atoi optarg) = none →
      (∀ p1, parseArgs atoi parseCommaList (before ++ .opt 'p' optarg :: after) rest p ≠
        .ok p1) ∧
      ∀ p2 errflg, parseLoop atoi parseCommaList before p 0 = .ok (p2, errflg) →
        parseArgs atoi parseCommaList (before ++ .opt 'p' optarg :: after) rest p =
          .error .undefinedPseudoCount) ∧
    (pseudoCountOf (-1) = some .zeroOffset0 ∧ pseudoCountOf 0 = some .zeroOffset1 ∧
      pseudoCountOf 1 = some .zeroOffset1 ∧ pseudoCountOf 2 = some .recPdoCount ∧
      ∀ pc : Int, pc ≠ -1 → pc ≠ 0 → pc ≠ 1 → pc ≠ 2 → pseudoCountOf pc = none) ∧
    (∀ p1, parseArgs atoi parseCommaList (before ++ after) rest p = .ok p1 →
      (∀ o ∈ before ++ after, o.isPseudoCount = false) →
      p1.pseudoCountType = p.pseudoCountType) ∧
    inPar2_t.inPar2_t.pseudoCountType = .recPdoCount := by
  have hstep : ∀ (q : inPar2_t) (e : Nat),
      parseLoop atoi parseCommaList (.opt 'p' optarg :: after) q e =
        match pseudoCountOf (atoi optarg) with
        | some scheme =>
          parseLoop atoi parseCommaList after { q with pseudoCountType := scheme } e
        | none => .error .undefinedPseudoCount := by
    intro q e
    simp only [parseLoop, parseOpt_pseudoCount]
    cases pseudoCountOf (atoi optarg) <;> rfl
  refine ⟨?_, ?_, ?_, ?_, rfl⟩
  · intro p1 h hafter
    obtain ⟨p2, hl, hp⟩ := parseArgs_ok atoi parseCommaList _ rest p p1 h
    rw [parseLoop_append] at hl
    cases hb : parseLoop atoi parseCommaList before p 0 with
    | error e => simp [hb] at hl
    | ok res =>
      obtain ⟨q, e⟩ := res
      simp only [hb, hstep] at hl
      cases hpc : pseudoCountOf (atoi optarg) with
      | none => simp [hpc] at hl
      | some scheme =>
        simp only [hpc] at hl
        rw [hp, parseLoop_other atoi parseCommaList after _ p2 e 0 hafter hl]
  · intro hnone
    have hloop : ∀ p2 errflg, parseLoop atoi parseCommaList before p 0 = .ok (p2, errflg) →
        parseLoop atoi parseCommaList (before ++ .opt 'p' optarg :: after) p 0 =
          .error .undefinedPseudoCount := by
      intro p2 errflg hb
      rw [parseLoop_append, hb]
      simp only [hstep, hnone]
    refine ⟨?_, ?_⟩
    · intro p1 h
      obtain ⟨p2, hl, -⟩ := parseArgs_ok atoi parseCommaList _ rest p p1 h
      cases hb : parseLoop atoi parseCommaList before p 0 with
      | error e =>
        rw [parseLoop_append, hb] at hl
        simp at hl
      | ok res =>
        obtain ⟨q, e⟩ := res
        rw [hloop q e hb] at hl
        simp at hl
    · intro p2 errflg hb
      simp only [parseArgs, hloop p2 errflg hb]
  · refine ⟨by decide, by decide, by decide, by decide, ?_⟩
    intro pc h1 h2 h3 h4
    simp [pseudoCountOf, h1, h2, h3, h4]
  · intro p1 h hno
    obtain ⟨p2, hl, hp⟩ := parseArgs_ok atoi parseCommaList _ rest p p1 h
    rw [hp, parseLoop_other atoi parseCommaList _ p p2 0 0 hno hl]

/-- C13: the case `'p'` of `parseArgs` maps the value `pc = atoi(optarg)` of the
option to the scheme of the table `-1 -> zeroOffset0, 0 -> zeroOffset1,
1 -> zeroOffset1, 2 -> recPdoCount`, accepting each of these four values, and
ends the process with the error of line 696 for every other integer; so does a
run of `parseArgs` on the option alone and the loop on the option between
others; the scheme after a run is that of the last `-p` option; the values 0
and 1 select the same scheme; and without a `-p` option the scheme stays what
it was, which is `recPdoCount` after the constructor. -/
theorem parseArgs_pseudoCount (atoi : String → Int)
    (parseCommaList : String → List Int → List Int) (before after : List Getopt)
    (rest : List String) (p : inPar2_t) (optarg : String) :
    (∀ errflg, parseOpt atoi parseCommaList p errflg (.opt 'p' optarg) =
      match pseudoCountOf (atoi optarg) with
      | some scheme => .ok ({ p with pseudoCountType := scheme }, errflg)
      | none => .error .undefinedPseudoCount) ∧
    (∀ errflg,
      (atoi optarg = -1 → parseOpt atoi parseCommaList p errflg (.opt 'p' optarg) =
        .ok ({ p with pseudoCountType := .zeroOffset0 }, errflg)) ∧
      (atoi optarg = 0 → parseOpt atoi parseCommaList p errflg (.opt 'p' optarg) =
        .ok ({ p with pseudoCountType := .zeroOffset1 }, errflg)) ∧
      (atoi optarg = 1 → parseOpt atoi parseCommaList p errflg (.opt 'p' optarg) =
        .ok ({ p with pseudoCountType := .zeroOffset1 }, errflg)) ∧
      (atoi optarg = 2 → parseOpt atoi parseCommaList p errflg (.opt 'p' optarg) =
        .ok ({ p with pseudoCountType := .recPdoCount }, errflg)) ∧
      (atoi optarg ≠ -1 → atoi optarg ≠ 0 → atoi optarg ≠ 1 → atoi optarg ≠ 2 →
        parseOpt atoi parseCommaList p errflg (.opt 'p' optarg) =
          .error .undefinedPseudoCount)) ∧
    (parseArgs atoi parseCommaList [.opt 'p' optarg] rest p =
      match pseudoCountOf (atoi optarg) with
      | some scheme =>
        .ok { p with pseudoCountType := scheme, trgFiles := p.trgFiles ++ rest }
      | none => .error .undefinedPseudoCount) ∧
    (parseLoop atoi parseCommaList (before ++ .opt 'p' optarg :: after) p 0 =
      match parseLoop atoi parseCommaList before p 0 with
      | .error e => .error e
      | .ok (p2, errflg) =>
        match pseudoCountOf (atoi optarg) with
        | some scheme =>
          parseLoop atoi parseCommaList after { p2 with pseudoCountType := scheme } errflg
        | none => .error .undefinedPseudoCount) ∧
    (∀ p1, parseArgs atoi parseCommaList (before ++ .opt 'p' optarg :: after) rest p = .ok p1 →
      (∀ o ∈ after, o.isPseudoCount = false) →
      pseudoCountOf (atoi optarg) = some p1.pseudoCountType) ∧
    (pseudoCountOf (atoi optarg) = none →
      (∀ p1, parseArgs atoi parseCommaList (before ++ .opt 'p' optarg :: after) rest p ≠
        .ok p1) ∧
      ∀ p2 errflg, parseLoop atoi parseCommaList before p 0 = .ok (p2, errflg) →
        parseArgs atoi parseCommaList (before ++ .opt 'p' optarg :: after) rest p =
          .error .undefinedPseudoCount) ∧
    (pseudoCountOf (-1) = some .zeroOffset0 ∧ pseudoCountOf 0 = some .zeroOffset1 ∧
      pseudoCountOf 1 = some .zeroOffset1 ∧ pseudoCountOf 2 = some .recPdoCount ∧
      ∀ pc : Int, pc ≠ -1 → pc ≠ 0 → pc ≠ 1 → pc ≠ 2 → pseudoCountOf pc = none) ∧
    (∀ p1, parseArgs atoi parseCommaList (before ++ after) rest p = .ok p1 →
      (∀ o ∈ before ++ after, o.isPseudoCount = false) →
      p1.pseudoCountType = p.pseudoCountType) ∧
    inPar2_t.inPar2_t.pseudoCountType = .recPdoCount := by
  have htable : ∀ pc : Int, pc ≠ -1 → pc ≠ 0 → pc ≠ 1 → pc ≠ 2 → pseudoCountOf pc = none := by
    intro pc h1 h2 h3 h4
    simp [pseudoCountOf, h1, h2, h3, h4]
  refine ⟨fun errflg => parseOpt_pseudoCount atoi parseCommaList p errflg optarg, ?_, ?_, ?_,
    pseudoCount_of_last_option atoi parseCommaList before after rest p optarg⟩
  · intro errflg
    refine ⟨?_, ?_, ?_, ?_, ?_⟩
    · intro h
      rw [parseOpt_pseudoCount, h]
      rfl
    · intro h
      rw [parseOpt_pseudoCount, h]
      rfl
    · intro h
      rw [parseOpt_pseudoCount, h]
      rfl
    · intro h
      rw [parseOpt_pseudoCount, h]
      rfl
    · intro h1 h2 h3 h4
      rw [parseOpt_pseudoCount, htable _ h1 h2 h3 h4]
  · simp only [parseArgs, parseLoop, parseOpt_pseudoCount]
    cases pseudoCountOf (atoi optarg) <;> rfl
  · rw [parseLoop_append]
    cases parseLoop atoi parseCommaList before p 0 with
    | error e => rfl
    | ok res =>
      obtain ⟨p2, errflg⟩ := res
      simp only [parseLoop, parseOpt_pseudoCount]
      cases pseudoCountOf (atoi optarg) <;> rfl

/-- Witness of C13: on a command line with `-p` alone, the values -1, 0, 1 and 2
are accepted and give `zeroOffset0`, `zeroOffset1`, `zeroOffset1` and
`recPdoCount`, the value 7 ends the run with the error of line 696; between
`-d mc` and `-o out` the option gives the same; without `-p` the scheme stays
`recPdoCount`. -/
theorem parseArgs_pseudoCount_witness :
    (parseArgs demoAtoi (fun _ l => l) [.opt 'p' "-1"] [] inPar2_t.inPar2_t =
      .ok { inPar2_t.inPar2_t with pseudoCountType := .zeroOffset0 }) ∧
    (parseArgs demoAtoi (fun _ l => l) [.opt 'p' "0"] [] inPar2_t.inPar2_t =
      .ok { inPar2_t.inPar2_t with pseudoCountType := .zeroOffset1 }) ∧
    (parseArgs demoAtoi (fun _ l => l) [.opt 'p' "1"] [] inPar2_t.inPar2_t =
      .ok { inPar2_t.inPar2_t with pseudoCountType := .zeroOffset1 }) ∧
    (parseArgs demoAtoi (fun _ l => l) [.opt 'p' "2"] [] inPar2_t.inPar2_t =
      .ok { inPar2_t.inPar2_t with pseudoCountType := .recPdoCount }) ∧
    (parseArgs demoAtoi (fun _ l => l) [.opt 'p' "7"] [] inPar2_t.inPar2_t =
      .error .undefinedPseudoCount) ∧
    (parseArgs demoAtoi (fun _ l => l) [.opt 'd' "mc", .opt 'p' "-1", .opt 'o' "out"] []
        inPar2_t.inPar2_t =
      .ok { inPar2_t.inPar2_t with
        mcDir := some "mc", outDir := some "out", pseudoCountType := .zeroOffset0 }) ∧
    (parseArgs demoAtoi (fun _ l => l) [.opt 'd' "mc", .opt 'p' "2", .opt 'p' "1"] []
        inPar2_t.inPar2_t =
      .ok { inPar2_t.inPar2_t with mcDir := some "mc", pseudoCountType := .zeroOffset1 }) ∧
    (parseArgs demoAtoi (fun _ l => l) [.opt 'd' "mc", .opt 'p' "7", .opt 'o' "out"] []
        inPar2_t.inPar2_t = .error .undefinedPseudoCount) ∧
    (parseArgs demoAtoi (fun _ l => l) [.opt 'd' "mc", .opt 'o' "out"] [] inPar2_t.inPar2_t =
      .ok { inPar2_t.inPar2_t with mcDir := some "mc", outDir := some "out" }) ∧
    ({ inPar2_t.inPar2_t with mcDir := some "mc", outDir := some "out" } :
      inPar2_t).pseudoCountType = .recPdoCount :=
  ⟨(parseArgs_pseudoCount demoAtoi (fun _ l => l) [] [] [] inPar2_t.inPar2_t "-1").2.2.1,
    (parseArgs_pseudoCount demoAtoi (fun _ l => l) [] [] [] inPar2_t.inPar2_t "0").2.2.1,
    (parseArgs_pseudoCount demoAtoi (fun _ l => l) [] [] [] inPar2_t.inPar2_t "1").2.2.1,
    (parseArgs_pseudoCount demoAtoi (fun _ l => l) [] [] [] inPar2_t.inPar2_t "2").2.2.1,
    (parseArgs_pseudoCount demoAtoi (fun _ l => l) [] [] [] inPar2_t.inPar2_t "7").2.2.1,
    by rfl, by rfl, by rfl, by rfl, by rfl⟩

end ClError
